import Mathlib

/-!
# Haar wavelet transform of `Loupax/imagehash`

A shallow embedding of `dwt.go` and `image.go`.

* `float64` values are modelled by exact rationals `ℚ`.
* A Go slice `[]float64` is a `List ℚ`, a `[][]float64` is a `List (List ℚ)`;
  in-place mutation becomes returning the updated value.
* Go `int` is the 64-bit two's complement integer: operations that may leave
  the range are wrapped explicitly (`wrapInt`). The length of a Go slice is an
  `int`, so theorems about slices may assume a length below `2 ^ 63`.
* A run-time panic is an `Except.error` carrying the kind of panic.
* The rows of a matrix do not share storage, the capacity of a slice equals its
  length, and the memory limits of the machine are not modelled.
* Every `for` loop is a fold of its body over the range of its counter; the
  state of the fold holds the variables the body assigns.
-/

namespace Imagehash

/-! ## Go run-time model -/

/-- Run-time panics of the Go program that the model distinguishes. -/
inductive GoPanic where
  | indexOutOfRange
  | sliceBounds
  | divideByZero
  | makeLen
  deriving DecidableEq, Repr

/-- Two's complement wrap-around of a mathematical integer into Go's 64-bit `int`. -/
def wrapInt (x : Int) : Int := (x + 2 ^ 63) % 2 ^ 64 - 2 ^ 63

/-- Go `x << k` on `int` (the shift count `k` is non-negative). -/
def shiftLeftInt (x : Int) (k : Nat) : Int := wrapInt (x * 2 ^ k)

/-- Go builtin `copy(dst, src)`: the first `min(len dst, len src)` elements of
`dst` are replaced by those of `src`; the value is the new content of `dst`. -/
def copy {α : Type} (dst src : List α) : List α :=
  src.take dst.length ++ dst.drop src.length

/-- Go index expression `l[i]` with a non-negative index: panics when out of range. -/
def idx {α : Type} (l : List α) (i : Nat) : Except GoPanic α :=
  match l[i]? with
  | some a => .ok a
  | none => .error .indexOutOfRange

/-- Go index expression `l[i]` with an `int` index, which may be negative. -/
def idxInt {α : Type} (l : List α) (i : Int) : Except GoPanic α :=
  if i < 0 then .error .indexOutOfRange else idx l i.toNat

/-- Go `make([]T, n)`: panics when the length is negative or does not fit in an
`int`, otherwise a slice of `n` zero values with capacity `n` (the memory
limits of the machine are not modelled). -/
def makeSlice {α : Type} (zero : α) (n : Int) : Except GoPanic (List α) :=
  if n < 0 ∨ 2 ^ 63 ≤ n then .error .makeLen else .ok (List.replicate n.toNat zero)

/-- Go slice expression `l[:high]` on a slice whose capacity equals its length. -/
def sliceTo {α : Type} (l : List α) (high : Nat) : Except GoPanic (List α) :=
  if high ≤ l.length then .ok (l.take high) else .error .sliceBounds

/-- Go `sort.Float64s` of the standard library: sorts in increasing order. -/
def sortFloat64s (l : List ℚ) : List ℚ := l.insertionSort (· ≤ ·)

/-! ## The Haar filter bank -/

/-- The struct `waveletCoefficients`. -/
structure waveletCoefficients where
  LowPass : List ℚ
  HighPass : List ℚ

/-- The package-level variable `haar`. -/
def haar : waveletCoefficients :=
  { HighPass := [1 / 2, -(1 / 2)]
    LowPass := [1 / 2, 1 / 2] }

/-! ## One-dimensional transforms -/

/-- The body of the `for` loop of `DWT1d`, for loop counter `i`. -/
def DWT1dStep (data : List ℚ) (half : Nat) (temp : List ℚ) (i : Nat) : List ℚ :=
  let k := i * 2
  let temp := temp.set i
    (haar.LowPass.getD 0 0 * data.getD k 0 + haar.LowPass.getD 1 0 * data.getD (k + 1) 0)
  temp.set (i + half)
    (haar.HighPass.getD 0 0 * data.getD k 0 + haar.HighPass.getD 1 0 * data.getD (k + 1) 0)

/-- The function `DWT1d`: the value is the content of `data` after the call.
All indices used are below `2 * half ≤ len data`, so no index panics. -/
def DWT1d (data : List ℚ) : List ℚ :=
  let temp := List.replicate data.length (0 : ℚ)
  let half := data.length / 2
  let temp := (List.range half).foldl (DWT1dStep data half) temp
  copy data temp

/-- The body of the `for` loop of `iDWT1d`, for loop counter `i`. -/
def iDWT1dStep (data : List ℚ) (half : Nat) (temp : List ℚ) (i : Nat) : List ℚ :=
  let k := i * 2
  let temp := temp.set k
    ((haar.LowPass.getD 0 0 * data.getD i 0 + haar.HighPass.getD 0 0 * data.getD (i + half) 0)
      / haar.HighPass.getD 0 0)
  temp.set (k + 1)
    ((haar.LowPass.getD 1 0 * data.getD i 0 + haar.HighPass.getD 1 0 * data.getD (i + half) 0)
      / haar.LowPass.getD 0 0)

/-- The function `iDWT1d`: the value is the content of `data` after the call. -/
def iDWT1d (data : List ℚ) : List ℚ :=
  let temp := List.replicate data.length (0 : ℚ)
  let half := data.length / 2
  let temp := (List.range half).foldl (iDWT1dStep data half) temp
  copy data temp

/-! ## Two-dimensional transforms -/

/-- The expression `dims / curlvl` with `curlvl := 1 << k` (truncated `int` division,
panics when the shift has produced `0`). -/
def curdimsAt (dims : Nat) (k : Nat) : Except GoPanic Int :=
  let curlvl := shiftLeftInt 1 k
  if curlvl = 0 then .error .divideByZero else .ok (Int.tdiv dims curlvl)

/-- One iteration of the row loop: `copy(row, data[i]); f(row); copy(data[i], row)`.
The state is the matrix and the buffer `row`, which is reused across iterations. -/
def rowStep (f : List ℚ → List ℚ) (st : List (List ℚ) × List ℚ) (i : Nat) :
    Except GoPanic (List (List ℚ) × List ℚ) := do
  let r ← idx st.1 i
  let row := f (copy st.2 r)
  pure (st.1.set i (copy r row), row)

/-- The row loop of `DWT2d` (with `f = DWT1d`) and of `IDWT2d` (with `f = iDWT1d`). -/
def rowPass (f : List ℚ → List ℚ) (curdims : Int) (data : List (List ℚ)) :
    Except GoPanic (List (List ℚ)) := do
  let row ← makeSlice (0 : ℚ) curdims
  let st ← (List.range curdims.toNat).foldlM (rowStep f) (data, row)
  pure st.1

/-- One iteration of the loop `col[i] = data[i][j]`. -/
def gatherStep (data : List (List ℚ)) (j : Nat) (col : List ℚ) (i : Nat) :
    Except GoPanic (List ℚ) := do
  let r ← idx data i
  let x ← idx r j
  pure (col.set i x)

/-- One iteration of the loop `data[i][j] = col[i]`. -/
def scatterStep (col : List ℚ) (j : Nat) (data : List (List ℚ)) (i : Nat) :
    Except GoPanic (List (List ℚ)) := do
  let x ← idx col i
  let r ← idx data i
  if j < r.length then pure (data.set i (r.set j x)) else .error .indexOutOfRange

/-- One iteration of the column loop, for column `j`: gather, transform, scatter.
The state is the matrix and the buffer `col`. -/
def colStep (f : List ℚ → List ℚ) (curdims : Nat) (st : List (List ℚ) × List ℚ) (j : Nat) :
    Except GoPanic (List (List ℚ) × List ℚ) := do
  let col ← (List.range curdims).foldlM (gatherStep st.1 j) st.2
  let col := f col
  let data ← (List.range curdims).foldlM (scatterStep col j) st.1
  pure (data, col)

/-- The column loop of `DWT2d` (with `f = DWT1d`) and of `IDWT2d` (with `f = iDWT1d`). -/
def colPass (f : List ℚ → List ℚ) (curdims : Int) (data : List (List ℚ)) :
    Except GoPanic (List (List ℚ)) := do
  let col ← makeSlice (0 : ℚ) curdims
  let st ← (List.range curdims.toNat).foldlM (colStep f curdims.toNat) (data, col)
  pure st.1

/-- The body of the level loop of `DWT2d`: rows first, then columns. -/
def DWT2dLevel (dims : Nat) (data : List (List ℚ)) (k : Nat) :
    Except GoPanic (List (List ℚ)) := do
  let curdims ← curdimsAt dims k
  let data ← rowPass DWT1d curdims data
  colPass DWT1d curdims data

/-- The function `DWT2d`: the value is the content of `data` after the call. -/
def DWT2d (data : List (List ℚ)) (level : Int) : Except GoPanic (List (List ℚ)) :=
  (List.range level.toNat).foldlM (DWT2dLevel data.length) data

/-- The body of the level loop of `IDWT2d`: columns first, then rows. -/
def IDWT2dLevel (dims : Nat) (data : List (List ℚ)) (k : Nat) :
    Except GoPanic (List (List ℚ)) := do
  let curdims ← curdimsAt dims k
  let data ← colPass iDWT1d curdims data
  rowPass iDWT1d curdims data

/-- The function `IDWT2d`: the loop counter runs from `level - 1` down to `0`. -/
def IDWT2d (data : List (List ℚ)) (level : Int) : Except GoPanic (List (List ℚ)) :=
  (List.range (wrapInt (level - 1) + 1).toNat).reverse.foldlM (IDWT2dLevel data.length) data

/-! ## Matrix utilities -/

/-- The function `floorp2` on a 64-bit `int`; `>>` is the arithmetic shift and the
final conversion `uint(...)` reduces modulo `2 ^ 64`. -/
def floorp2 (val : Int) : Nat :=
  let val := Int.lor val (val >>> 1)
  let val := Int.lor val (val >>> 2)
  let val := Int.lor val (val >>> 4)
  let val := Int.lor val (val >>> 8)
  let val := Int.lor val (val >>> 16)
  ((val - (val >>> 1)) % 2 ^ 64).toNat

/-- One iteration of the loop of `flatten`: `copy(flat[offset:offset+len(row)], row)`
followed by `offset += len(row)`. The state is `flat` and `offset`. -/
def flattenStep (st : List ℚ × Nat) (row : List ℚ) : Except GoPanic (List ℚ × Nat) :=
  if st.2 + row.length ≤ st.1.length then
    .ok (st.1.take st.2 ++ copy ((st.1.drop st.2).take row.length) row
          ++ st.1.drop (st.2 + row.length), st.2 + row.length)
  else .error .sliceBounds

/-- The function `flatten`; the product `len(data)*len(data)` is an `int` product. -/
def flatten (data : List (List ℚ)) : Except GoPanic (List ℚ) := do
  let flat ← makeSlice (0 : ℚ) (wrapInt (data.length * data.length))
  let st ← data.foldlM flattenStep (flat, 0)
  pure st.1

/-- The function `median`. -/
def median (data : List ℚ) : Except GoPanic ℚ :=
  let temp := List.replicate data.length (0 : ℚ)
  let temp := copy temp data
  let temp := sortFloat64s temp
  if temp.length % 2 = 1 then
    idx data (temp.length / 2)
  else do
    let a ← idxInt temp (((temp.length / 2 : Nat) : Int) - 1)
    let b ← idx temp (temp.length / 2)
    pure (1 / 2 * (a + b))

/-- One iteration of the loop of `extractSquareRegion`. -/
def extractStep (data : List (List ℚ)) (width : Nat) (excerpt : List (List ℚ)) (i : Nat) :
    Except GoPanic (List (List ℚ)) := do
  let e ← makeSlice (0 : ℚ) width
  let r ← idx data i
  let s ← sliceTo r width
  pure (excerpt.set i (copy e s))

/-- The function `extractSquareRegion`; `width` is a `uint`, the loop bound is `int(width)`. -/
def extractSquareRegion (data : List (List ℚ)) (width : Nat) :
    Except GoPanic (List (List ℚ)) := do
  let excerpt ← makeSlice ([] : List ℚ) width
  (List.range (wrapInt width).toNat).foldlM (extractStep data width) excerpt

/-! ## Shapes -/

/-- A square matrix of side `d`: `d` rows, each of length `d`. -/
def IsSquare (M : List (List ℚ)) (d : Nat) : Prop :=
  M.length = d ∧ ∀ r ∈ M, r.length = d

instance (M : List (List ℚ)) (d : Nat) : Decidable (IsSquare M d) := by
  unfold IsSquare
  infer_instance

/-- Entry `(i, j)` of a matrix, `0` outside the matrix. -/
def entry (M : List (List ℚ)) (i j : Nat) : ℚ := (M.getD i []).getD j 0

/-- Entry `(i, j)` of a matrix as an index expression `M[i][j]`: `none` when out of range. -/
def entry? (M : List (List ℚ)) (i j : Nat) : Option ℚ := M[i]? >>= fun r => r[j]?

/-- The effect of one iteration of the row loop on a row `r` at least `c` long: the
first `c` entries are replaced by their transform `f`. -/
def rowMap (f : List ℚ → List ℚ) (c : Nat) (r : List ℚ) : List ℚ := f (r.take c) ++ r.drop c

/-- The first `c` entries of column `j` of a matrix. -/
def colOf (M : List (List ℚ)) (j c : Nat) : List ℚ := (List.range c).map (fun i => entry M i j)

/-! ## Index-checked one-dimensional transforms -/

/-- Go assignment `l[i] = x`: panics when the index is out of range. -/
def setIdx {α : Type} (l : List α) (i : Nat) (x : α) : Except GoPanic (List α) :=
  if i < l.length then .ok (l.set i x) else .error .indexOutOfRange

/-- The body of the `for` loop of `DWT1d` with every index expression checked. -/
def DWT1dStepChecked (data : List ℚ) (half : Nat) (temp : List ℚ) (i : Nat) :
    Except GoPanic (List ℚ) := do
  let k := i * 2
  let a ← idx data k
  let b ← idx data (k + 1)
  let temp ← setIdx temp i (haar.LowPass.getD 0 0 * a + haar.LowPass.getD 1 0 * b)
  let a ← idx data k
  let b ← idx data (k + 1)
  setIdx temp (i + half) (haar.HighPass.getD 0 0 * a + haar.HighPass.getD 1 0 * b)

/-- The function `DWT1d` with every index expression checked: an index out of range
would be reported as a panic. -/
def DWT1dChecked (data : List ℚ) : Except GoPanic (List ℚ) := do
  let temp := List.replicate data.length (0 : ℚ)
  let half := data.length / 2
  let temp ← (List.range half).foldlM (DWT1dStepChecked data half) temp
  pure (copy data temp)

/-- The body of the `for` loop of `iDWT1d` with every index expression checked. -/
def iDWT1dStepChecked (data : List ℚ) (half : Nat) (temp : List ℚ) (i : Nat) :
    Except GoPanic (List ℚ) := do
  let k := i * 2
  let a ← idx data i
  let b ← idx data (i + half)
  let temp ← setIdx temp k
    ((haar.LowPass.getD 0 0 * a + haar.HighPass.getD 0 0 * b) / haar.HighPass.getD 0 0)
  let a ← idx data i
  let b ← idx data (i + half)
  setIdx temp (k + 1)
    ((haar.LowPass.getD 1 0 * a + haar.HighPass.getD 1 0 * b) / haar.LowPass.getD 0 0)

/-- The function `iDWT1d` with every index expression checked. -/
def iDWT1dChecked (data : List ℚ) : Except GoPanic (List ℚ) := do
  let temp := List.replicate data.length (0 : ℚ)
  let half := data.length / 2
  let temp ← (List.range half).foldlM (iDWT1dStepChecked data half) temp
  pure (copy data temp)

/-! ## Luminance preprocessing (`image.go`) -/

/-- The generic function `min`, at type `int`. -/
def min (x y : Int) : Int := if x < y then x else y

/-- The four `uint32` samples returned by `pixel.RGBA()`. -/
structure RGBA where
  r : Nat
  g : Nat
  b : Nat
  a : Nat

/-- What `grayscale` uses of an `image.Image`: the size of its bounds and its pixels. -/
structure Image where
  Dx : Int
  Dy : Int
  At : Int → Int → RGBA

/-- The value stored in `data[y][x]` for a pixel with samples `r, g, b`. -/
def luminance (r g b : Nat) : ℚ := (0.299 * (r : ℚ) + 0.587 * (g : ℚ) + 0.114 * (b : ℚ)) / 65535

/-- The right-hand side of the assignment to `data[y][x]`: the luminance of
`pixel := resized.At(x, y)`. -/
def pixelValue (resized : Image) (x y : Nat) : ℚ :=
  let pixel := resized.At (x : Int) (y : Int)
  luminance pixel.r pixel.g pixel.b

/-- The inner loop of `grayscale` over `x`, filling the row `data[y]`. -/
def grayscaleRow (resized : Image) (imgScale : Nat) (y : Nat) (row : List ℚ) : List ℚ :=
  (List.range imgScale).foldl (fun row x => row.set x (pixelValue resized x y)) row

/-- The function `grayscale`; the external `imaging.Resize` (with the `Cosine` filter) is
the parameter `resize`. The Go function always returns a `nil` error. -/
def grayscale (resize : Image → Int → Int → Image) (img : Image) :
    Except GoPanic (List (List ℚ)) := do
  let imgScale := wrapInt (floorp2 (min img.Dx img.Dy))
  let resized := resize img imgScale imgScale
  let data ← makeSlice ([] : List ℚ) imgScale
  (List.range imgScale.toNat).foldlM
    (fun data y => do
      let row ← makeSlice (0 : ℚ) imgScale
      pure (data.set y (grayscaleRow resized imgScale.toNat y row))) data

/-- One smearing statement `val |= val >> s` of `floorp2`, on a non-negative value. -/
def smearStep (s x : Nat) : Nat := x ||| (x >>> s)

/-- The five smearing statements of `floorp2`, on a non-negative value. -/
def smear (x : Nat) : Nat := smearStep 16 (smearStep 8 (smearStep 4 (smearStep 2 (smearStep 1 x))))

instance {α : Type} [DecidableEq α] : DecidableEq (Except GoPanic α) := fun a b =>
  match a, b with
  | .ok x, .ok y =>
    if h : x = y then isTrue (by rw [h]) else isFalse (fun h2 => h (by cases h2; rfl))
  | .error x, .error y =>
    if h : x = y then isTrue (by rw [h]) else isFalse (fun h2 => h (by cases h2; rfl))
  | .ok _, .error _ => isFalse (fun h => by cases h)
  | .error _, .ok _ => isFalse (fun h => by cases h)

/-! ## Notions used to state the effect of one level -/

/-- The first `c` entries of row `i` of a matrix. -/
def rowOf (M : List (List ℚ)) (i c : Nat) : List ℚ := (List.range c).map (fun j => entry M i j)

/-- The pair index read by output position `p` of `DWT1d` on a sequence of length `2 * h`. -/
def haarIdx (h p : Nat) : Nat := if p < h then p else p - h

/-- The sign of the second sample at output position `p`: `+1` in the low-frequency half,
`-1` in the high-frequency half. -/
def haarSign (h p : Nat) : ℚ := if p < h then 1 else -1

/-- Entry `(i, j)` of one forward level on a region of side `2 * h` with entries `E`. -/
def haar2 (E : Nat → Nat → ℚ) (h i j : Nat) : ℚ :=
  1 / 2 * (1 / 2 * E (2 * haarIdx h i) (2 * haarIdx h j)
      + haarSign h j / 2 * E (2 * haarIdx h i) (2 * haarIdx h j + 1))
    + haarSign h i / 2 * (1 / 2 * E (2 * haarIdx h i + 1) (2 * haarIdx h j)
      + haarSign h j / 2 * E (2 * haarIdx h i + 1) (2 * haarIdx h j + 1))

/-- The transpose of a square matrix. -/
def transpose (M : List (List ℚ)) : List (List ℚ) :=
  (List.range M.length).map (fun i => (List.range M.length).map (fun j => entry M j i))

/-- The arithmetic mean of the `2 ^ L × 2 ^ L` block of `M` whose top-left corner is
`(i * 2 ^ L, j * 2 ^ L)`. -/
def blockMean (M : List (List ℚ)) (L i j : Nat) : ℚ :=
  (∑ a in Finset.range (2 ^ L), ∑ b in Finset.range (2 ^ L),
      entry M (i * 2 ^ L + a) (j * 2 ^ L + b)) / (2 ^ L * 2 ^ L)

/-! # Theorems -/

/-! ## The builtin `copy` -/

theorem copy_of_length_eq {α : Type} (dst src : List α) (h : dst.length = src.length) :
    copy dst src = src := by
  unfold copy
  rw [h, List.take_length, List.drop_of_length_le (le_of_eq h), List.append_nil]

theorem length_copy {α : Type} (dst src : List α) : (copy dst src).length = dst.length := by
  unfold copy
  simp only [List.length_append, List.length_take, List.length_drop]
  omega

theorem DWT1dStep_length (data : List ℚ) (half : ℕ) (temp : List ℚ) (i : ℕ) :
    (DWT1dStep data half temp i).length = temp.length := by
  simp [DWT1dStep]

theorem DWT1d_loop_length (data : List ℚ) (half m : ℕ) (temp : List ℚ) :
    ((List.range m).foldl (DWT1dStep data half) temp).length = temp.length := by
  induction m with
  | zero => simp
  | succ m ih => rw [List.range_succ, List.foldl_append]; simp [DWT1dStep_length, ih]

theorem DWT1d_loop_getElem? (data : List ℚ) (half n m : ℕ) (hm : m ≤ half) (hn : 2 * half ≤ n)
    (p : ℕ) :
    ((List.range m).foldl (DWT1dStep data half) (List.replicate n 0))[p]? =
      if p < m then some (1 / 2 * data.getD (2 * p) 0 + 1 / 2 * data.getD (2 * p + 1) 0)
      else if half ≤ p ∧ p < half + m then
        some (1 / 2 * data.getD (2 * (p - half)) 0 - 1 / 2 * data.getD (2 * (p - half) + 1) 0)
      else if p < n then some 0 else none := by
  induction m with
  | zero =>
    have : ¬ (half ≤ p ∧ p < half + 0) := by omega
    simp only [Nat.add_zero] at this
    simp [List.getElem?_replicate, this]
  | succ m ih =>
    have ih := ih (by omega)
    have hlen := DWT1d_loop_length data half m (List.replicate n 0)
    rw [List.range_succ, List.foldl_append]
    simp only [List.foldl_cons, List.foldl_nil]
    generalize (List.range m).foldl (DWT1dStep data half) (List.replicate n 0) = t at ih hlen
    simp only [List.length_replicate] at hlen
    simp only [DWT1dStep, List.getElem?_set, List.length_set, hlen, ih, haar]
    by_cases h1 : m + half = p
    · subst h1
      have c1 : m + half < n := by omega
      have c2 : ¬ (m + half < m + 1) := by omega
      have c3 : half ≤ m + half ∧ m + half < half + (m + 1) := by omega
      rw [if_pos rfl, if_pos c1, if_neg c2, if_pos c3, Nat.add_sub_cancel, Nat.mul_comm m 2]
      simp
      ring
    · by_cases h2 : m = p
      · subst h2
        have c1 : m < n := by omega
        rw [if_neg h1, if_pos rfl, if_pos c1, if_pos (Nat.lt_succ_self m), Nat.mul_comm m 2]
        simp
      · have e1 : (p < m + 1) ↔ p < m := by omega
        have e2 : (half ≤ p ∧ p < half + (m + 1)) ↔ (half ≤ p ∧ p < half + m) := by omega
        rw [if_neg h1, if_neg h2]
        simp only [e1, e2]

theorem iDWT1dStep_length (data : List ℚ) (half : ℕ) (temp : List ℚ) (i : ℕ) :
    (iDWT1dStep data half temp i).length = temp.length := by
  simp [iDWT1dStep]

theorem iDWT1d_loop_length (data : List ℚ) (half m : ℕ) (temp : List ℚ) :
    ((List.range m).foldl (iDWT1dStep data half) temp).length = temp.length := by
  induction m with
  | zero => simp
  | succ m ih => rw [List.range_succ, List.foldl_append]; simp [iDWT1dStep_length, ih]

theorem iDWT1d_loop_getElem? (data : List ℚ) (half n m : ℕ) (hm : m ≤ half) (hn : 2 * half ≤ n)
    (p : ℕ) :
    ((List.range m).foldl (iDWT1dStep data half) (List.replicate n 0))[p]? =
      if p < 2 * m then
        (if p % 2 = 0 then some (data.getD (p / 2) 0 + data.getD (p / 2 + half) 0)
         else some (data.getD (p / 2) 0 - data.getD (p / 2 + half) 0))
      else if p < n then some 0 else none := by
  induction m with
  | zero => simp [List.getElem?_replicate]
  | succ m ih =>
    have ih := ih (by omega)
    have hlen := iDWT1d_loop_length data half m (List.replicate n 0)
    rw [List.range_succ, List.foldl_append]
    simp only [List.foldl_cons, List.foldl_nil]
    generalize (List.range m).foldl (iDWT1dStep data half) (List.replicate n 0) = t at ih hlen
    simp only [List.length_replicate] at hlen
    simp only [iDWT1dStep, List.getElem?_set, List.length_set, hlen, ih, haar]
    by_cases h1 : m * 2 + 1 = p
    · subst h1
      have c1 : m * 2 + 1 < n := by omega
      have c2 : m * 2 + 1 < 2 * (m + 1) := by omega
      have c3 : ¬ ((m * 2 + 1) % 2 = 0) := by omega
      have c4 : (m * 2 + 1) / 2 = m := by omega
      rw [if_pos rfl, if_pos c1, if_pos c2, if_neg c3, c4]
      simp
      ring
    · by_cases h2 : m * 2 = p
      · subst h2
        have c1 : m * 2 < n := by omega
        have c2 : m * 2 < 2 * (m + 1) := by omega
        have c3 : (m * 2) % 2 = 0 := by omega
        have c4 : (m * 2) / 2 = m := by omega
        rw [if_neg h1, if_pos rfl, if_pos c1, if_pos c2, if_pos c3, c4]
        simp
        ring
      · have e1 : (p < 2 * (m + 1)) ↔ p < 2 * m := by omega
        rw [if_neg h1, if_neg h2]
        simp only [e1]

theorem DWT1d_length (data : List ℚ) : (DWT1d data).length = data.length := by
  simp [DWT1d, length_copy]

theorem iDWT1d_length (data : List ℚ) : (iDWT1d data).length = data.length := by
  simp [iDWT1d, length_copy]

theorem DWT1d_getElem? (data : List ℚ) (p : ℕ) :
    (DWT1d data)[p]? =
      if p < data.length / 2 then
        some (1 / 2 * data.getD (2 * p) 0 + 1 / 2 * data.getD (2 * p + 1) 0)
      else if data.length / 2 ≤ p ∧ p < data.length / 2 + data.length / 2 then
        some (1 / 2 * data.getD (2 * (p - data.length / 2)) 0
          - 1 / 2 * data.getD (2 * (p - data.length / 2) + 1) 0)
      else if p < data.length then some 0 else none := by
  unfold DWT1d
  simp only []
  rw [copy_of_length_eq _ _ (by rw [DWT1d_loop_length, List.length_replicate])]
  exact DWT1d_loop_getElem? data _ _ _ (le_refl _) (by omega) p

theorem iDWT1d_getElem? (data : List ℚ) (p : ℕ) :
    (iDWT1d data)[p]? =
      if p < 2 * (data.length / 2) then
        (if p % 2 = 0 then some (data.getD (p / 2) 0 + data.getD (p / 2 + data.length / 2) 0)
         else some (data.getD (p / 2) 0 - data.getD (p / 2 + data.length / 2) 0))
      else if p < data.length then some 0 else none := by
  unfold iDWT1d
  simp only []
  rw [copy_of_length_eq _ _ (by rw [iDWT1d_loop_length, List.length_replicate])]
  exact iDWT1d_loop_getElem? data _ _ _ (le_refl _) (by omega) p

theorem getD_eq_of_lt (x : List ℚ) (p : ℕ) (h : p < x.length) : x[p]? = some (x.getD p 0) := by
  simp [List.getD_eq_getElem?_getD, List.getElem?_eq_getElem h]

theorem iDWT1d_DWT1d (x : List ℚ) (h : x.length % 2 = 0) : iDWT1d (DWT1d x) = x := by
  apply List.ext_getElem?
  intro p
  rw [iDWT1d_getElem?, DWT1d_length]
  have hn : 2 * (x.length / 2) = x.length := by omega
  rw [hn]
  by_cases hp : p < x.length
  · rw [if_pos hp, getD_eq_of_lt x p hp]
    have hy1 : (DWT1d x).getD (p / 2) 0
        = 1 / 2 * x.getD (2 * (p / 2)) 0 + 1 / 2 * x.getD (2 * (p / 2) + 1) 0 := by
      rw [List.getD_eq_getElem?_getD (DWT1d x), DWT1d_getElem?, if_pos (by omega)]
      rfl
    have hy2 : (DWT1d x).getD (p / 2 + x.length / 2) 0
        = 1 / 2 * x.getD (2 * (p / 2)) 0 - 1 / 2 * x.getD (2 * (p / 2) + 1) 0 := by
      rw [List.getD_eq_getElem?_getD (DWT1d x), DWT1d_getElem?, if_neg (by omega),
        if_pos (by omega), Nat.add_sub_cancel]
      rfl
    rw [hy1, hy2]
    by_cases hpar : p % 2 = 0
    · rw [if_pos hpar]
      have : 2 * (p / 2) = p := by omega
      rw [this]
      congr 1
      ring
    · rw [if_neg hpar]
      have : 2 * (p / 2) + 1 = p := by omega
      rw [this]
      congr 1
      ring
  · rw [if_neg hp, if_neg hp]
    simp [List.getElem?_eq_none (not_lt.mp hp)]

/-! ## Claims on the one-dimensional transforms -/

/-- C2: for every sequence `x` of even length, `iDWT1d` applied to the result of
`DWT1d` gives back exactly `x`. -/
theorem roundtrip_1d (x : List ℚ) (h : x.length % 2 = 0) : iDWT1d (DWT1d x) = x :=
  iDWT1d_DWT1d x h

/-- Witness of C2 on the sequence `[3, 1, 4, 1, 5, 9]`. -/
theorem roundtrip_1d_witness :
    ([3, 1, 4, 1, 5, 9] : List ℚ).length % 2 = 0 ∧
      iDWT1d (DWT1d [3, 1, 4, 1, 5, 9]) = [3, 1, 4, 1, 5, 9] :=
  ⟨by decide, roundtrip_1d [3, 1, 4, 1, 5, 9] (by decide)⟩

/-- C3: for `data` of even length `n`, `DWT1d data` has length `n`; for every `i < n / 2`
the entries `data[2i] = a` and `data[2i+1] = b` exist, entry `i` of the result is
`0.5 * a + 0.5 * b` and entry `i + n / 2` is `0.5 * a - 0.5 * b`. -/
theorem DWT1d_layout (data : List ℚ) (h : data.length % 2 = 0) :
    (DWT1d data).length = data.length ∧
      ∀ i, i < data.length / 2 →
        ∃ a b, data[2 * i]? = some a ∧ data[2 * i + 1]? = some b ∧
          (DWT1d data)[i]? = some (1 / 2 * a + 1 / 2 * b) ∧
          (DWT1d data)[i + data.length / 2]? = some (1 / 2 * a - 1 / 2 * b) := by
  refine ⟨DWT1d_length data, fun i hi => ?_⟩
  refine ⟨data.getD (2 * i) 0, data.getD (2 * i + 1) 0, getD_eq_of_lt _ _ (by omega),
    getD_eq_of_lt _ _ (by omega), ?_, ?_⟩
  · rw [DWT1d_getElem?, if_pos hi]
  · rw [DWT1d_getElem?, if_neg (by omega), if_pos (by omega), Nat.add_sub_cancel]

/-- Witness of C3 on the sequence `[3, 1, 4, 1]`. -/
theorem DWT1d_layout_witness :
    ([3, 1, 4, 1] : List ℚ).length % 2 = 0 ∧
      (DWT1d [3, 1, 4, 1]).length = 4 ∧
      (DWT1d [3, 1, 4, 1])[1]? = some (1 / 2 * 4 + 1 / 2 * 1) ∧
      (DWT1d [3, 1, 4, 1])[1 + 4 / 2]? = some (1 / 2 * 4 - 1 / 2 * 1) := by
  obtain ⟨hl, hi⟩ := DWT1d_layout [3, 1, 4, 1] (by decide)
  obtain ⟨a, b, ha, hb, h1, h2⟩ := hi 1 (by decide)
  simp at ha hb
  subst ha hb
  exact ⟨by decide, hl, h1, h2⟩

/-- C4: for every value `c` and every even length `n`, `DWT1d` of `n` copies of `c` is
`n / 2` copies of `c` followed by `n / 2` copies of `0`. -/
theorem DWT1d_constant (c : ℚ) (n : ℕ) (h : n % 2 = 0) :
    DWT1d (List.replicate n c) = List.replicate (n / 2) c ++ List.replicate (n / 2) 0 := by
  apply List.ext_getElem?
  intro p
  rw [DWT1d_getElem?]
  simp only [List.length_replicate, List.getD_eq_getElem?_getD, List.getElem?_replicate]
  by_cases h1 : p < n / 2
  · have c1 : 2 * p < n := by omega
    have c2 : 2 * p + 1 < n := by omega
    rw [if_pos h1, if_pos c1, if_pos c2, List.getElem?_append_left (by simpa using h1),
      List.getElem?_replicate, if_pos h1]
    simp only [Option.getD_some]
    congr 1
    ring
  · rw [if_neg h1, List.getElem?_append_right (by simpa using h1)]
    simp only [List.length_replicate, List.getElem?_replicate]
    by_cases h2 : p < n
    · have c0 : n / 2 ≤ p ∧ p < n / 2 + n / 2 := by omega
      have c1 : 2 * (p - n / 2) < n := by omega
      have c2 : 2 * (p - n / 2) + 1 < n := by omega
      have c3 : p - n / 2 < n / 2 := by omega
      rw [if_pos c0, if_pos c1, if_pos c2, if_pos c3]
      simp
    · have c0 : ¬ (n / 2 ≤ p ∧ p < n / 2 + n / 2) := by omega
      have c3 : ¬ (p - n / 2 < n / 2) := by omega
      rw [if_neg c0, if_neg h2, if_neg c3]

/-- Witness of C4 on the constant sequence `[7, 7, 7, 7]`. -/
theorem DWT1d_constant_witness :
    4 % 2 = 0 ∧ DWT1d (List.replicate 4 7) = List.replicate (4 / 2) 7 ++ List.replicate (4 / 2) 0 :=
  ⟨by decide, DWT1d_constant 7 4 (by decide)⟩

/-! ## Claims on `median` -/

theorem sortFloat64s_eq_of_sorted_perm (data s : List ℚ) (hs : s.Sorted (· ≤ ·))
    (hp : s.Perm data) : sortFloat64s data = s := by
  unfold sortFloat64s
  exact List.eq_of_perm_of_sorted ((List.perm_insertionSort _ data).trans hp.symm)
    (List.sorted_insertionSort _ data) hs

theorem median_of_even (data s : List ℚ) (hne : data ≠ []) (heven : data.length % 2 = 0)
    (hs : s.Sorted (· ≤ ·)) (hp : s.Perm data) :
    ∃ a b, s[data.length / 2 - 1]? = some a ∧ s[data.length / 2]? = some b ∧
      median data = .ok (1 / 2 * (a + b)) := by
  have hlen : s.length = data.length := hp.length_eq
  have hpos : 0 < data.length := List.length_pos.mpr hne
  refine ⟨s.getD (data.length / 2 - 1) 0, s.getD (data.length / 2) 0,
    getD_eq_of_lt _ _ (by omega), getD_eq_of_lt _ _ (by omega), ?_⟩
  unfold median
  simp only []
  rw [copy_of_length_eq _ _ (by simp), sortFloat64s_eq_of_sorted_perm data s hs hp, hlen]
  have c1 : ¬ (data.length % 2 = 1) := by omega
  have c2 : ¬ (((data.length / 2 : ℕ) : ℤ) - 1 < 0) := by omega
  have c3 : (((data.length / 2 : ℕ) : ℤ) - 1).toNat = data.length / 2 - 1 := by omega
  rw [if_neg c1]
  simp only [idxInt, if_neg c2, c3, idx, getD_eq_of_lt s _ (show data.length / 2 - 1 < s.length by omega),
    getD_eq_of_lt s _ (show data.length / 2 < s.length by omega)]
  rfl

/-- C6: for every non-empty sequence of even length, in any order, `median` returns
`0.5 * (s[len/2 - 1] + s[len/2])` where `s` is the ascending-sorted arrangement of the
sequence; in particular the median of `1, 2, 3, 4` (given here as `[4, 1, 3, 2]` and
as `[1, 2, 3, 4]`) is `2.5`. -/
theorem median_even :
    (∀ data s : List ℚ, data ≠ [] → data.length % 2 = 0 → s.Sorted (· ≤ ·) → s.Perm data →
      ∃ a b, s[data.length / 2 - 1]? = some a ∧ s[data.length / 2]? = some b ∧
        median data = .ok (1 / 2 * (a + b))) ∧
    median [1, 2, 3, 4] = .ok (5 / 2) ∧ median [4, 1, 3, 2] = .ok (5 / 2) := by
  refine ⟨median_of_even, ?_, ?_⟩
  · obtain ⟨a, b, ha, hb, h⟩ := median_of_even [1, 2, 3, 4] [1, 2, 3, 4] (by simp) (by decide)
      (by norm_num [List.Sorted]) (List.Perm.refl _)
    simp at ha hb
    subst ha hb
    rw [h]
    norm_num
  · obtain ⟨a, b, ha, hb, h⟩ := median_of_even [4, 1, 3, 2] [1, 2, 3, 4] (by simp) (by decide)
      (by norm_num [List.Sorted]) (by decide)
    simp at ha hb
    subst ha hb
    rw [h]
    norm_num

/-- Witness of C6 on the unsorted sequence `[8, 2, 6, 4]`, whose sorted arrangement is
`[2, 4, 6, 8]`. -/
theorem median_even_witness :
    ([8, 2, 6, 4] : List ℚ) ≠ [] ∧ ([8, 2, 6, 4] : List ℚ).length % 2 = 0 ∧
      ([2, 4, 6, 8] : List ℚ).Sorted (· ≤ ·) ∧ ([2, 4, 6, 8] : List ℚ).Perm [8, 2, 6, 4] ∧
      median [8, 2, 6, 4] = .ok (1 / 2 * (4 + 6)) := by
  have hne : ([8, 2, 6, 4] : List ℚ) ≠ [] := by simp
  have hs : ([2, 4, 6, 8] : List ℚ).Sorted (· ≤ ·) := by norm_num [List.Sorted]
  have hp : ([2, 4, 6, 8] : List ℚ).Perm [8, 2, 6, 4] := by decide
  obtain ⟨a, b, ha, hb, h⟩ := median_even.1 [8, 2, 6, 4] [2, 4, 6, 8] hne (by decide) hs hp
  simp at ha hb
  subst ha hb
  exact ⟨hne, by decide, hs, hp, h⟩

/-- C5 (evaluation at the failing input): on `[3, 1, 2]` the function `median` returns
`1`, the middle element of the input as given, while the middle value of the sorted
copy `[1, 2, 3]` is `2`. -/
theorem median_odd_unsorted :
    median [3, 1, 2] = .ok 1 ∧ sortFloat64s [3, 1, 2] = [1, 2, 3] ∧
      (sortFloat64s [3, 1, 2])[([3, 1, 2] : List ℚ).length / 2]? = some 2 := by
  have hsort : sortFloat64s [3, 1, 2] = [1, 2, 3] :=
    sortFloat64s_eq_of_sorted_perm [3, 1, 2] [1, 2, 3] (by norm_num [List.Sorted]) (by decide)
  refine ⟨?_, hsort, ?_⟩
  · unfold median
    simp only []
    rw [copy_of_length_eq _ _ (by simp), hsort]
    rfl
  · rw [hsort]
    rfl

/-! ## Claims on `floorp2` -/

/-- C7 (evaluation at the failing input): `floorp2` agrees with the examples of the
claim on `1, 5, 8, 17`, but on `2 ^ 32 = 4294967296`, itself a power of two, it
returns `4294967295`, which is not a power of two. -/
theorem floorp2_two_pow_32 :
    floorp2 1 = 1 ∧ floorp2 5 = 4 ∧ floorp2 8 = 8 ∧ floorp2 17 = 16 ∧
      floorp2 4294967296 = 4294967295 ∧ ¬ ∃ k : ℕ, floorp2 4294967296 = 2 ^ k := by
  have h : floorp2 4294967296 = 4294967295 := by decide
  refine ⟨by decide, by decide, by decide, by decide, h, ?_⟩
  rintro ⟨k, hk⟩
  rw [h] at hk
  cases k with
  | zero => simp at hk
  | succ k =>
    rw [pow_succ] at hk
    omega

/-! ## The monad of panics -/

theorem bind_ok {α β : Type} (a : α) (f : α → Except GoPanic β) :
    (Except.ok a >>= f) = f a := rfl

theorem bind_error {α β : Type} (e : GoPanic) (f : α → Except GoPanic β) :
    ((Except.error e : Except GoPanic α) >>= f) = Except.error e := rfl

theorem pure_eq_ok {α : Type} (a : α) : (pure a : Except GoPanic α) = Except.ok a := rfl

theorem idx_of_lt {α : Type} (l : List α) (i : ℕ) (h : i < l.length) :
    idx l i = .ok l[i] := by
  unfold idx
  rw [List.getElem?_eq_getElem h]

theorem idx_of_le {α : Type} (l : List α) (i : ℕ) (h : l.length ≤ i) :
    idx l i = .error .indexOutOfRange := by
  unfold idx
  rw [List.getElem?_eq_none h]

theorem wrapInt_of_lt (n : ℕ) (h : n < 2 ^ 63) : wrapInt n = n := by
  unfold wrapInt
  omega

theorem makeSlice_of_lt {α : Type} (zero : α) (n : ℕ) (h : n < 2 ^ 63) :
    makeSlice zero (n : ℤ) = .ok (List.replicate n zero) := by
  unfold makeSlice
  have c : ¬ ((n : ℤ) < 0 ∨ (2 : ℤ) ^ 63 ≤ n) := by omega
  rw [if_neg c, Int.toNat_ofNat]

theorem makeSlice_of_ge {α : Type} (zero : α) (n : ℕ) (h : 2 ^ 63 ≤ n) :
    makeSlice zero (n : ℤ) = .error .makeLen := by
  unfold makeSlice
  have c : ((n : ℤ) < 0 ∨ (2 : ℤ) ^ 63 ≤ n) := by omega
  rw [if_pos c]

/-! ## Claims on `extractSquareRegion` -/

theorem sliceTo_of_le {α : Type} (l : List α) (high : ℕ) (h : high ≤ l.length) :
    sliceTo l high = .ok (l.take high) := by
  unfold sliceTo
  rw [if_pos h]

theorem extractStep_ok (M : List (List ℚ)) (width m : ℕ) (hw : width < 2 ^ 63)
    (hM : m < M.length) (hrows : ∀ r ∈ M, width ≤ r.length) (excerpt : List (List ℚ)) :
    extractStep M width excerpt m = .ok (excerpt.set m (M[m].take width)) := by
  unfold extractStep
  have hr : width ≤ M[m].length := hrows _ (List.getElem_mem hM)
  rw [makeSlice_of_lt _ _ hw, bind_ok, idx_of_lt M m hM, bind_ok, sliceTo_of_le _ _ hr, bind_ok,
    copy_of_length_eq _ _ (by simp [hr])]
  rfl

theorem extract_loop (M : List (List ℚ)) (width m : ℕ) (hw : width < 2 ^ 63) (hm : m ≤ width)
    (hM : m ≤ M.length) (hrows : ∀ r ∈ M, width ≤ r.length) :
    (List.range m).foldlM (extractStep M width) (List.replicate width []) =
      .ok ((M.take m).map (List.take width) ++ List.replicate (width - m) []) := by
  induction m with
  | zero => simp [pure_eq_ok]
  | succ m ih =>
    have hlt : m < M.length := by omega
    rw [List.range_succ, List.foldlM_append, ih (by omega) (by omega), bind_ok,
      List.foldlM_cons, extractStep_ok M width m hw hlt hrows, bind_ok, List.foldlM_nil,
      pure_eq_ok]
    congr 1
    have hlen : ((M.take m).map (List.take width)).length = m := by simp; omega
    rw [List.set_append, if_neg (by omega), hlen, Nat.sub_self]
    have hrep : List.replicate (width - m) ([] : List ℚ)
        = [] :: List.replicate (width - (m + 1)) [] := by
      rw [← List.replicate_succ]
      congr 1
      omega
    rw [hrep, List.set_cons_zero, List.take_succ, List.getElem?_eq_getElem hlt,
      Option.toList_some, List.map_append, List.map_singleton, List.append_assoc,
      List.singleton_append]

theorem extract_eq (M : List (List ℚ)) (s width : ℕ) (hsq : IsSquare M s) (hw : width ≤ s)
    (hrep : s < 2 ^ 63) :
    extractSquareRegion M width = .ok ((M.take width).map (List.take width)) := by
  unfold extractSquareRegion
  have hw63 : width < 2 ^ 63 := by omega
  rw [makeSlice_of_lt _ _ hw63, bind_ok, wrapInt_of_lt _ hw63, Int.toNat_ofNat,
    extract_loop M width width hw63 (le_refl _) (by rw [hsq.1]; exact hw)
      (fun r hr => by rw [hsq.2 r hr]; exact hw)]
  simp

theorem entry?_eq_some (M : List (List ℚ)) (d i j : ℕ) (hsq : IsSquare M d) (hi : i < d)
    (hj : j < d) : entry? M i j = some (entry M i j) := by
  have hi2 : i < M.length := by rw [hsq.1]; exact hi
  have hr : M[i].length = d := hsq.2 _ (List.getElem_mem hi2)
  have hj2 : j < M[i].length := by rw [hr]; exact hj
  unfold entry? entry
  simp [List.getD_eq_getElem?_getD, List.getElem?_eq_getElem hi2, List.getElem?_eq_getElem hj2]

theorem isSquare_take_map_take (M : List (List ℚ)) (s width : ℕ) (hsq : IsSquare M s)
    (hw : width ≤ s) : IsSquare ((M.take width).map (List.take width)) width := by
  constructor
  · simp [hsq.1, hw]
  · intro r hr
    rw [List.mem_map] at hr
    obtain ⟨r0, hr0, rfl⟩ := hr
    have := hsq.2 r0 (List.mem_of_mem_take hr0)
    simp [this, hw]

theorem entry_take_map_take (M : List (List ℚ)) (width i j : ℕ) (hi : i < width)
    (hj : j < width) : entry ((M.take width).map (List.take width)) i j = entry M i j := by
  unfold entry
  simp only [List.getD_eq_getElem?_getD, List.getElem?_map, List.getElem?_take, if_pos hi]
  cases h : M[i]? with
  | none => simp
  | some r => simp [List.getElem?_take, hj]

theorem take_map_take_self (M : List (List ℚ)) (s : ℕ) (hsq : IsSquare M s) :
    (M.take s).map (List.take s) = M := by
  rw [← hsq.1, List.take_length]
  conv_rhs => rw [← List.map_id M]
  apply List.map_congr_left
  intro r hr
  rw [hsq.1, id, List.take_of_length_le (le_of_eq (hsq.2 r hr))]

/-- C8: for a square matrix `M` of side `s` (a Go slice, so `s < 2 ^ 63`) and `width ≤ s`,
`extractSquareRegion` returns a `width × width` matrix `E` with `E[i][j] = M[i][j]` for
all `i, j < width`; with `width = s` the result equals `M`. -/
theorem extractSquareRegion_spec (M : List (List ℚ)) (s width : ℕ) (hsq : IsSquare M s)
    (hrep : s < 2 ^ 63) (hw : width ≤ s) :
    ∃ E, extractSquareRegion M width = .ok E ∧ IsSquare E width ∧
      (∀ i j, i < width → j < width → ∃ x, entry? E i j = some x ∧ entry? M i j = some x) ∧
      (width = s → E = M) := by
  refine ⟨_, extract_eq M s width hsq hw hrep, isSquare_take_map_take M s width hsq hw, ?_, ?_⟩
  · intro i j hi hj
    refine ⟨entry M i j, ?_, entry?_eq_some M s i j hsq (by omega) (by omega)⟩
    rw [entry?_eq_some _ width i j (isSquare_take_map_take M s width hsq hw) hi hj,
      entry_take_map_take M width i j hi hj]
  · intro h
    subst h
    exact take_map_take_self M width hsq

/-- Witness of C8: the top-left `2 × 2` region of a `3 × 3` matrix. -/
theorem extractSquareRegion_spec_witness :
    IsSquare [[1, 2, 3], [4, 5, 6], [7, 8, 9]] 3 ∧ 3 < 2 ^ 63 ∧ 2 ≤ 3 ∧
      ∃ E, extractSquareRegion [[1, 2, 3], [4, 5, 6], [7, 8, 9]] 2 = .ok E ∧ IsSquare E 2 :=
  have h := extractSquareRegion_spec [[1, 2, 3], [4, 5, 6], [7, 8, 9]] 3 2 (by decide)
    (by decide) (by decide)
  ⟨by decide, by decide, by decide, h.choose, h.choose_spec.1, h.choose_spec.2.1⟩

/-- C9: for a square matrix `M` of side `s` and every `width > s`, `extractSquareRegion`
returns no matrix: it panics, with `makeslice: len out of range` when `width` does not fit
in an `int`, otherwise with an index out of range (`s = 0`) or slice bounds out of range. -/
theorem extractSquareRegion_out_of_range (M : List (List ℚ)) (s width : ℕ)
    (hsq : IsSquare M s) (hw : s < width) :
    extractSquareRegion M width =
      .error (if 2 ^ 63 ≤ width then .makeLen
        else if s = 0 then .indexOutOfRange else .sliceBounds) := by
  unfold extractSquareRegion
  by_cases h63 : 2 ^ 63 ≤ width
  · rw [makeSlice_of_ge _ _ h63, bind_error, if_pos h63]
  · have hw63 : width < 2 ^ 63 := by omega
    obtain ⟨w, rfl⟩ : ∃ w, width = w + 1 := ⟨width - 1, by omega⟩
    rw [makeSlice_of_lt _ _ hw63, bind_ok, wrapInt_of_lt _ hw63, Int.toNat_ofNat,
      List.range_succ_eq_map, List.foldlM_cons, if_neg h63]
    unfold extractStep
    rw [makeSlice_of_lt _ _ hw63, bind_ok]
    by_cases hs : s = 0
    · rw [idx_of_le M 0 (by rw [hsq.1, hs]), bind_error, bind_error, if_pos hs]
    · have h0 : 0 < M.length := by rw [hsq.1]; omega
      have hr : M[0].length = s := hsq.2 _ (List.getElem_mem h0)
      have hsl : sliceTo M[0] (w + 1) = .error .sliceBounds := by
        unfold sliceTo
        rw [if_neg (by omega)]
      rw [idx_of_lt M 0 h0, bind_ok, hsl, bind_error, bind_error, if_neg hs]

/-- Witness of C9: width `3` on a `2 × 2` matrix. -/
theorem extractSquareRegion_out_of_range_witness :
    IsSquare [[1, 2], [3, 4]] 2 ∧ 2 < 3 ∧
      extractSquareRegion [[1, 2], [3, 4]] 3 = .error .sliceBounds :=
  ⟨by decide, by decide, extractSquareRegion_out_of_range [[1, 2], [3, 4]] 2 3 (by decide)
    (by decide)⟩

/-! ## Claims on `flatten` -/

theorem rowStep_ok (f : List ℚ → List ℚ) (hf : ∀ v, (f v).length = v.length)
    (D : List (List ℚ)) (buf : List ℚ) (c m : ℕ) (hm : m < D.length) (hbuf : buf.length = c)
    (hrow : c ≤ D[m].length) :
    rowStep f (D, buf) m = .ok (D.set m (rowMap f c D[m]), f (D[m].take c)) := by
  unfold rowStep
  simp only []
  have hcopy : copy buf D[m] = D[m].take c := by
    unfold copy
    rw [hbuf, List.drop_of_length_le (by omega), List.append_nil]
  have hlen : (f (D[m].take c)).length = c := by
    rw [hf, List.length_take]
    omega
  have hcopy2 : copy D[m] (f (D[m].take c)) = rowMap f c D[m] := by
    unfold copy rowMap
    rw [List.take_of_length_le (by omega), hlen]
  rw [idx_of_lt D m hm, bind_ok, hcopy, hcopy2]
  rfl

theorem rowPass_loop (f : List ℚ → List ℚ) (hf : ∀ v, (f v).length = v.length)
    (M : List (List ℚ)) (c m : ℕ) (hmc : m ≤ c) (hM : m ≤ M.length)
    (hrows : ∀ r ∈ M, c ≤ r.length) (buf : List ℚ) (hbuf : buf.length = c) :
    ∃ buf2, (List.range m).foldlM (rowStep f) (M, buf)
        = .ok ((M.take m).map (rowMap f c) ++ M.drop m, buf2) ∧ buf2.length = c := by
  induction m with
  | zero => exact ⟨buf, by simp [pure_eq_ok], hbuf⟩
  | succ m ih =>
    obtain ⟨buf1, h1, hlen1⟩ := ih (by omega) (by omega)
    have hlt : m < M.length := by omega
    have hA : ((M.take m).map (rowMap f c)).length = m := by simp; omega
    have hlt2 : m < ((M.take m).map (rowMap f c) ++ M.drop m).length := by
      simp only [List.length_append, hA, List.length_drop]
      omega
    have hget : ((M.take m).map (rowMap f c) ++ M.drop m)[m] = M[m] := by
      rw [List.getElem_append_right (by omega)]
      simp only [List.getElem_drop, hA, Nat.sub_self, Nat.add_zero]
    refine ⟨f (M[m].take c), ?_, ?_⟩
    · rw [List.range_succ, List.foldlM_append, h1, bind_ok, List.foldlM_cons,
        rowStep_ok f hf _ buf1 c m hlt2 hlen1 (by rw [hget]; exact hrows _ (List.getElem_mem hlt)),
        bind_ok, List.foldlM_nil, pure_eq_ok, hget]
      congr 2
      rw [List.set_append, if_neg (by omega), hA, Nat.sub_self, List.drop_eq_getElem_cons hlt,
        List.set_cons_zero, List.take_succ, List.getElem?_eq_getElem hlt, Option.toList_some,
        List.map_append, List.map_singleton, List.append_assoc, List.singleton_append]
    · rw [hf, List.length_take]
      have := hrows _ (List.getElem_mem hlt)
      omega

theorem rowPass_eq (f : List ℚ → List ℚ) (hf : ∀ v, (f v).length = v.length)
    (M : List (List ℚ)) (d c : ℕ) (hsq : IsSquare M d) (hc : c ≤ d) (hrep : c < 2 ^ 63) :
    rowPass f (c : ℤ) M = .ok ((M.take c).map (rowMap f c) ++ M.drop c) := by
  unfold rowPass
  obtain ⟨buf2, h, _⟩ := rowPass_loop f hf M c c (le_refl _) (by rw [hsq.1]; exact hc)
    (fun r hr => by rw [hsq.2 r hr]; exact hc) (List.replicate c 0) (by simp)
  rw [makeSlice_of_lt _ _ hrep, bind_ok, Int.toNat_ofNat, h, bind_ok, pure_eq_ok]

theorem rowMap_length (f : List ℚ → List ℚ) (hf : ∀ v, (f v).length = v.length) (c : ℕ)
    (r : List ℚ) : (rowMap f c r).length = r.length := by
  unfold rowMap
  rw [List.length_append, hf, List.length_take, List.length_drop]
  omega

theorem isSquare_rowPass (f : List ℚ → List ℚ) (hf : ∀ v, (f v).length = v.length)
    (M : List (List ℚ)) (d c : ℕ) (hsq : IsSquare M d) :
    IsSquare ((M.take c).map (rowMap f c) ++ M.drop c) d := by
  constructor
  · rw [List.length_append, List.length_map, List.length_take, List.length_drop, hsq.1]
    omega
  · intro r hr
    rw [List.mem_append] at hr
    rcases hr with hr | hr
    · rw [List.mem_map] at hr
      obtain ⟨r0, hr0, rfl⟩ := hr
      rw [rowMap_length f hf, hsq.2 r0 (List.mem_of_mem_take hr0)]
    · exact hsq.2 r (List.mem_of_mem_drop hr)

theorem rowMap_rowMap (f g : List ℚ → List ℚ) (hf : ∀ v, (f v).length = v.length)
    (c : ℕ) (hgf : ∀ v, v.length = c → g (f v) = v) (r : List ℚ) (hr : c ≤ r.length) :
    rowMap g c (rowMap f c r) = r := by
  have hlen : (f (r.take c)).length = c := by
    rw [hf, List.length_take]
    omega
  unfold rowMap
  rw [List.take_append_of_le_length (by omega), List.take_of_length_le (by omega),
    List.drop_append_of_le_length (by omega), List.drop_of_length_le (by omega), List.nil_append,
    hgf _ (by rw [List.length_take]; omega), List.take_append_drop]

theorem rowPass_roundtrip (f g : List ℚ → List ℚ) (hf : ∀ v, (f v).length = v.length)
    (hg : ∀ v, (g v).length = v.length) (M : List (List ℚ)) (d c : ℕ) (hsq : IsSquare M d)
    (hc : c ≤ d) (hrep : c < 2 ^ 63) (hgf : ∀ v, v.length = c → g (f v) = v) :
    rowPass g (c : ℤ) ((M.take c).map (rowMap f c) ++ M.drop c) = .ok M := by
  rw [rowPass_eq g hg _ d c (isSquare_rowPass f hf M d c hsq) hc hrep]
  congr 1
  have hA : ((M.take c).map (rowMap f c)).length = c := by
    rw [List.length_map, List.length_take, hsq.1]
    omega
  rw [List.take_append_of_le_length (by omega), List.take_of_length_le (by omega),
    List.drop_append_of_le_length (by omega), List.drop_of_length_le (by omega), List.nil_append,
    List.map_map]
  have hid : (M.take c).map (rowMap g c ∘ rowMap f c) = M.take c := by
    conv_rhs => rw [← List.map_id (M.take c)]
    apply List.map_congr_left
    intro r hr
    rw [Function.comp_apply, id,
      rowMap_rowMap f g hf c hgf r (by rw [hsq.2 r (List.mem_of_mem_take hr)]; exact hc)]
  rw [hid, List.take_append_drop]

/-! ## Entries of a matrix -/

theorem entry_eq_getElem (D : List (List ℚ)) (i j : ℕ) (hi : i < D.length)
    (hj : j < D[i].length) : entry D i j = D[i][j] := by
  unfold entry
  simp [List.getD_eq_getElem?_getD, List.getElem?_eq_getElem hi, List.getElem?_eq_getElem hj]

theorem isSquare_ext (A B : List (List ℚ)) (d : ℕ) (hA : IsSquare A d) (hB : IsSquare B d)
    (h : ∀ i j, i < d → j < d → entry A i j = entry B i j) : A = B := by
  apply List.ext_getElem (by rw [hA.1, hB.1])
  intro i hi1 hi2
  have hrA : A[i].length = d := hA.2 _ (List.getElem_mem hi1)
  have hrB : B[i].length = d := hB.2 _ (List.getElem_mem hi2)
  apply List.ext_getElem (by rw [hrA, hrB])
  intro j hj1 hj2
  rw [← entry_eq_getElem A i j hi1 hj1, ← entry_eq_getElem B i j hi2 hj2]
  exact h i j (by rw [← hA.1]; exact hi1) (by rw [← hrA]; exact hj1)

theorem isSquare_set (D : List (List ℚ)) (d m : ℕ) (r : List ℚ) (hD : IsSquare D d)
    (hr : r.length = d) : IsSquare (D.set m r) d := by
  constructor
  · rw [List.length_set, hD.1]
  · intro r2 hr2
    rcases List.mem_or_eq_of_mem_set hr2 with h | h
    · exact hD.2 r2 h
    · rw [h, hr]

theorem entry_set (D : List (List ℚ)) (m j : ℕ) (x : ℚ) (hm : m < D.length)
    (hj : j < D[m].length) (i k : ℕ) :
    entry (D.set m (D[m].set j x)) i k = if i = m ∧ k = j then x else entry D i k := by
  unfold entry
  simp only [List.getD_eq_getElem?_getD, List.getElem?_set]
  by_cases hi : m = i
  · subst hi
    simp only [if_pos rfl, if_pos hm, Option.getD_some, List.getElem?_set, true_and,
      List.getElem?_eq_getElem hm]
    by_cases hk : j = k
    · subst hk
      simp [hj]
    · have hk2 : ¬ (k = j) := fun h => hk h.symm
      simp [hk, hk2]
  · have hi2 : ¬ (i = m) := fun h => hi h.symm
    simp [hi, hi2]

theorem colOf_length (M : List (List ℚ)) (j c : ℕ) : (colOf M j c).length = c := by
  simp [colOf]

theorem colOf_getD (M : List (List ℚ)) (j c i : ℕ) (hi : i < c) :
    (colOf M j c).getD i 0 = entry M i j := by
  simp [colOf, List.getD_eq_getElem?_getD, List.getElem?_range, hi]

theorem map_getD_range (l : List ℚ) (c : ℕ) (h : l.length = c) :
    (List.range c).map (fun i => l.getD i 0) = l := by
  apply List.ext_getElem (by simp [h])
  intro i h1 h2
  simp [List.getD_eq_getElem?_getD, List.getElem?_eq_getElem h2]

/-! ## The column loop -/

theorem gatherStep_ok (D : List (List ℚ)) (j m : ℕ) (col : List ℚ) (hm : m < D.length)
    (hj : j < D[m].length) : gatherStep D j col m = .ok (col.set m (entry D m j)) := by
  unfold gatherStep
  rw [idx_of_lt D m hm, bind_ok, idx_of_lt _ j hj, bind_ok, entry_eq_getElem D m j hm hj]
  rfl

theorem gather_loop (D : List (List ℚ)) (j c m : ℕ) (hm : m ≤ c) (hD : c ≤ D.length)
    (hrows : ∀ r ∈ D, j < r.length) (col : List ℚ) (hcol : col.length = c) :
    (List.range m).foldlM (gatherStep D j) col
      = .ok ((List.range m).map (fun i => entry D i j) ++ col.drop m) := by
  induction m with
  | zero => simp [pure_eq_ok]
  | succ m ih =>
    have hlt : m < D.length := by omega
    have hltc : m < col.length := by omega
    rw [List.range_succ, List.foldlM_append, ih (by omega), bind_ok, List.foldlM_cons,
      gatherStep_ok D j m _ hlt (hrows _ (List.getElem_mem hlt)), bind_ok, List.foldlM_nil,
      pure_eq_ok]
    congr 1
    rw [List.set_append, if_neg (by simp), List.length_map, List.length_range, Nat.sub_self,
      List.drop_eq_getElem_cons hltc, List.set_cons_zero, List.map_append, List.map_singleton,
      List.append_assoc, List.singleton_append]

theorem gather_eq (D : List (List ℚ)) (d j c : ℕ) (hsq : IsSquare D d) (hc : c ≤ d) (hj : j < d)
    (col : List ℚ) (hcol : col.length = c) :
    (List.range c).foldlM (gatherStep D j) col = .ok (colOf D j c) := by
  rw [gather_loop D j c c (le_refl _) (by rw [hsq.1]; exact hc)
    (fun r hr => by rw [hsq.2 r hr]; exact hj) col hcol,
    List.drop_of_length_le (by omega), List.append_nil]
  rfl

theorem scatterStep_ok (col : List ℚ) (j m : ℕ) (D : List (List ℚ)) (hc : m < col.length)
    (hm : m < D.length) (hj : j < D[m].length) :
    scatterStep col j D m = .ok (D.set m (D[m].set j (col.getD m 0))) := by
  unfold scatterStep
  rw [idx_of_lt col m hc, bind_ok, idx_of_lt D m hm, bind_ok, if_pos hj, pure_eq_ok]
  simp [List.getD_eq_getElem?_getD, List.getElem?_eq_getElem hc]

theorem scatter_loop (col : List ℚ) (j c d m : ℕ) (D : List (List ℚ)) (hsq : IsSquare D d)
    (hj : j < d) (hm : m ≤ c) (hc : c ≤ d) (hcol : col.length = c) :
    ∃ D2, (List.range m).foldlM (scatterStep col j) D = .ok D2 ∧ IsSquare D2 d ∧
      ∀ i k, entry D2 i k = if i < m ∧ k = j then col.getD i 0 else entry D i k := by
  induction m with
  | zero => exact ⟨D, by simp [pure_eq_ok], hsq, fun i k => by simp⟩
  | succ m ih =>
    obtain ⟨D1, h1, hsq1, hent1⟩ := ih (by omega)
    have hlt : m < D1.length := by rw [hsq1.1]; omega
    have hr : D1[m].length = d := hsq1.2 _ (List.getElem_mem hlt)
    refine ⟨D1.set m (D1[m].set j (col.getD m 0)), ?_, ?_, ?_⟩
    · rw [List.range_succ, List.foldlM_append, h1, bind_ok, List.foldlM_cons,
        scatterStep_ok col j m D1 (by omega) hlt (by rw [hr]; exact hj), bind_ok,
        List.foldlM_nil, pure_eq_ok]
    · exact isSquare_set D1 d m _ hsq1 (by rw [List.length_set, hr])
    · intro i k
      rw [entry_set D1 m j _ hlt (by rw [hr]; exact hj), hent1]
      by_cases h : i = m ∧ k = j
      · obtain ⟨rfl, rfl⟩ := h
        simp
      · rw [if_neg h]
        have e : (i < m + 1 ∧ k = j) ↔ (i < m ∧ k = j) := by
          constructor
          · rintro ⟨h1, h2⟩
            refine ⟨?_, h2⟩
            have : i ≠ m := fun h3 => h ⟨h3, h2⟩
            omega
          · rintro ⟨h1, h2⟩
            exact ⟨by omega, h2⟩
        simp only [e]

theorem colStep_ok (f : List ℚ → List ℚ) (hf : ∀ v, (f v).length = v.length)
    (D : List (List ℚ)) (buf : List ℚ) (d c j : ℕ) (hsq : IsSquare D d) (hc : c ≤ d)
    (hj : j < c) (hbuf : buf.length = c) :
    ∃ D2, colStep f c (D, buf) j = .ok (D2, f (colOf D j c)) ∧ IsSquare D2 d ∧
      ∀ i k, entry D2 i k
        = if i < c ∧ k = j then (f (colOf D j c)).getD i 0 else entry D i k := by
  obtain ⟨D2, h2, hsq2, hent2⟩ := scatter_loop (f (colOf D j c)) j c d c D hsq (by omega)
    (le_refl _) hc (by rw [hf, colOf_length])
  refine ⟨D2, ?_, hsq2, hent2⟩
  unfold colStep
  simp only []
  rw [gather_eq D d j c hsq hc (by omega) buf hbuf, bind_ok, h2, bind_ok, pure_eq_ok]

theorem colPass_loop (f : List ℚ → List ℚ) (hf : ∀ v, (f v).length = v.length)
    (M : List (List ℚ)) (d c m : ℕ) (hsq : IsSquare M d) (hc : c ≤ d) (hm : m ≤ c)
    (buf : List ℚ) (hbuf : buf.length = c) :
    ∃ D2 buf2, (List.range m).foldlM (colStep f c) (M, buf) = .ok (D2, buf2) ∧
      buf2.length = c ∧ IsSquare D2 d ∧
      ∀ i k, entry D2 i k
        = if i < c ∧ k < m then (f (colOf M k c)).getD i 0 else entry M i k := by
  induction m with
  | zero => exact ⟨M, buf, by simp [pure_eq_ok], hbuf, hsq, fun i k => by simp⟩
  | succ m ih =>
    obtain ⟨D1, buf1, h1, hlen1, hsq1, hent1⟩ := ih (by omega)
    obtain ⟨D2, h2, hsq2, hent2⟩ := colStep_ok f hf D1 buf1 d c m hsq1 hc (by omega) hlen1
    have hcol : colOf D1 m c = colOf M m c := by
      unfold colOf
      apply List.map_congr_left
      intro i _
      rw [hent1, if_neg (by omega)]
    rw [hcol] at h2 hent2
    refine ⟨D2, f (colOf M m c), ?_, by rw [hf, colOf_length], hsq2, ?_⟩
    · rw [List.range_succ, List.foldlM_append, h1, bind_ok, List.foldlM_cons, h2, bind_ok,
        List.foldlM_nil, pure_eq_ok]
    · intro i k
      rw [hent2, hent1]
      by_cases hk : k = m
      · subst hk
        by_cases hi : i < c
        · rw [if_pos ⟨hi, rfl⟩, if_pos ⟨hi, Nat.lt_succ_self k⟩]
        · rw [if_neg (fun h => hi h.1), if_neg (fun h => hi h.1), if_neg (fun h => hi h.1)]
      · rw [if_neg (fun h => hk h.2)]
        have e : (i < c ∧ k < m + 1) ↔ (i < c ∧ k < m) := by
          constructor
          · rintro ⟨h1, h2⟩
            exact ⟨h1, by omega⟩
          · rintro ⟨h1, h2⟩
            exact ⟨h1, by omega⟩
        simp only [e]

theorem colPass_spec (f : List ℚ → List ℚ) (hf : ∀ v, (f v).length = v.length)
    (M : List (List ℚ)) (d c : ℕ) (hsq : IsSquare M d) (hc : c ≤ d) (hrep : c < 2 ^ 63) :
    ∃ D2, colPass f (c : ℤ) M = .ok D2 ∧ IsSquare D2 d ∧
      ∀ i k, entry D2 i k
        = if i < c ∧ k < c then (f (colOf M k c)).getD i 0 else entry M i k := by
  obtain ⟨D2, buf2, h, _, hsq2, hent2⟩ := colPass_loop f hf M d c c hsq hc (le_refl _)
    (List.replicate c 0) (by simp)
  refine ⟨D2, ?_, hsq2, hent2⟩
  unfold colPass
  rw [makeSlice_of_lt _ _ hrep, bind_ok, Int.toNat_ofNat, h, bind_ok, pure_eq_ok]

theorem colPass_roundtrip (f g : List ℚ → List ℚ) (hf : ∀ v, (f v).length = v.length)
    (hg : ∀ v, (g v).length = v.length) (M T : List (List ℚ)) (d c : ℕ) (hsq : IsSquare M d)
    (hc : c ≤ d) (hrep : c < 2 ^ 63) (hgf : ∀ v, v.length = c → g (f v) = v)
    (hT : IsSquare T d)
    (hent : ∀ i k, entry T i k
      = if i < c ∧ k < c then (f (colOf M k c)).getD i 0 else entry M i k) :
    colPass g (c : ℤ) T = .ok M := by
  obtain ⟨D2, h2, hsq2, hent2⟩ := colPass_spec g hg T d c hT hc hrep
  rw [h2]
  congr 1
  apply isSquare_ext D2 M d hsq2 hsq
  intro i k _ _
  rw [hent2]
  by_cases hik : i < c ∧ k < c
  · rw [if_pos hik]
    have hcol : colOf T k c = f (colOf M k c) := by
      rw [← map_getD_range (f (colOf M k c)) c (by rw [hf, colOf_length])]
      unfold colOf
      apply List.map_congr_left
      intro i2 hi2
      rw [hent, if_pos ⟨List.mem_range.mp hi2, hik.2⟩]
      rfl
    rw [hcol, hgf _ (colOf_length M k c), colOf_getD M k c i hik.1]
  · rw [if_neg hik, hent, if_neg hik]

/-! ## The level loop -/

theorem shiftLeftInt_one_of_le (k : ℕ) (hk : k ≤ 62) : shiftLeftInt 1 k = 2 ^ k := by
  have h1 : (2 : ℤ) ^ k ≤ 2 ^ 62 := pow_le_pow_right₀ (by norm_num) hk
  have h2 : (0 : ℤ) < 2 ^ k := by positivity
  unfold shiftLeftInt wrapInt
  rw [one_mul]
  omega

theorem shiftLeftInt_one_63 : shiftLeftInt 1 63 = -2 ^ 63 := by
  unfold shiftLeftInt wrapInt
  norm_num

theorem curdimsAt_of_le (d k : ℕ) (hk : k ≤ 62) :
    curdimsAt d k = .ok (((d / 2 ^ k : ℕ)) : ℤ) := by
  have h2 : (2 : ℤ) ^ k ≠ 0 := by positivity
  unfold curdimsAt
  simp only []
  rw [shiftLeftInt_one_of_le k hk, if_neg h2]
  congr 1
  have : ((2 : ℤ) ^ k) = ((2 ^ k : ℕ) : ℤ) := by push_cast; rfl
  rw [this, ← Int.ofNat_tdiv]

theorem curdimsAt_63 (d : ℕ) (hd : d < 2 ^ 63) : curdimsAt d 63 = .ok ((0 : ℕ) : ℤ) := by
  unfold curdimsAt
  simp only []
  rw [shiftLeftInt_one_63, if_neg (by norm_num)]
  congr 1
  rw [Int.tdiv_neg, Nat.cast_zero, neg_eq_zero]
  have : ((2 : ℤ) ^ 63) = ((2 ^ 63 : ℕ) : ℤ) := by push_cast
  rw [this, ← Int.ofNat_tdiv, Nat.div_eq_of_lt hd]
  rfl

theorem curdimsAt_ok (d k : ℕ) (hk : k ≤ 63) (hd : d < 2 ^ 63) (hdiv : 2 ^ (k + 1) ∣ d) :
    ∃ c : ℕ, curdimsAt d k = .ok (c : ℤ) ∧ c ≤ d ∧ c % 2 = 0 ∧ c < 2 ^ 63 := by
  by_cases h63 : k = 63
  · subst h63
    exact ⟨0, curdimsAt_63 d hd, Nat.zero_le _, by decide, by decide⟩
  · refine ⟨d / 2 ^ k, curdimsAt_of_le d k (by omega), Nat.div_le_self _ _, ?_,
      lt_of_le_of_lt (Nat.div_le_self _ _) hd⟩
    obtain ⟨q, hq⟩ := hdiv
    have hpos : 0 < 2 ^ k := by positivity
    have : d = 2 ^ k * (2 * q) := by rw [hq, pow_succ]; ring
    rw [this, Nat.mul_div_cancel_left _ hpos]
    omega

theorem level_roundtrip (M : List (List ℚ)) (d c : ℕ) (hsq : IsSquare M d) (hc : c ≤ d)
    (heven : c % 2 = 0) (hrep : c < 2 ^ 63) :
    ∃ T, (rowPass DWT1d (c : ℤ) M >>= colPass DWT1d (c : ℤ)) = .ok T ∧ IsSquare T d ∧
      (colPass iDWT1d (c : ℤ) T >>= rowPass iDWT1d (c : ℤ)) = .ok M := by
  have hgf : ∀ v : List ℚ, v.length = c → iDWT1d (DWT1d v) = v :=
    fun v hv => iDWT1d_DWT1d v (by rw [hv]; exact heven)
  have hsq1 := isSquare_rowPass DWT1d DWT1d_length M d c hsq
  obtain ⟨T, hT, hsqT, hent⟩ := colPass_spec DWT1d DWT1d_length _ d c hsq1 hc hrep
  refine ⟨T, ?_, hsqT, ?_⟩
  · rw [rowPass_eq DWT1d DWT1d_length M d c hsq hc hrep, bind_ok, hT]
  · rw [colPass_roundtrip DWT1d iDWT1d DWT1d_length iDWT1d_length _ T d c hsq1 hc hrep hgf hsqT
      hent, bind_ok,
      rowPass_roundtrip DWT1d iDWT1d DWT1d_length iDWT1d_length M d c hsq hc hrep hgf]

theorem DWT2dLevel_roundtrip (M : List (List ℚ)) (d k : ℕ) (hsq : IsSquare M d) (hk : k ≤ 63)
    (hd : d < 2 ^ 63) (hdiv : 2 ^ (k + 1) ∣ d) :
    ∃ T, DWT2dLevel d M k = .ok T ∧ IsSquare T d ∧ IDWT2dLevel d T k = .ok M := by
  obtain ⟨c, hcur, hc, heven, hrep⟩ := curdimsAt_ok d k hk hd hdiv
  obtain ⟨T, h1, hsqT, h2⟩ := level_roundtrip M d c hsq hc heven hrep
  refine ⟨T, ?_, hsqT, ?_⟩
  · unfold DWT2dLevel
    rw [hcur, bind_ok]
    exact h1
  · unfold IDWT2dLevel
    rw [hcur, bind_ok]
    exact h2

theorem levels_roundtrip (d L : ℕ) (hL : L ≤ 64) (hd : d < 2 ^ 63) (hdiv : 2 ^ L ∣ d)
    (M : List (List ℚ)) (hsq : IsSquare M d) :
    ∃ T, (List.range L).foldlM (DWT2dLevel d) M = .ok T ∧ IsSquare T d ∧
      (List.range L).reverse.foldlM (IDWT2dLevel d) T = .ok M := by
  induction L with
  | zero => exact ⟨M, by simp [pure_eq_ok], hsq, by simp [pure_eq_ok]⟩
  | succ L ih =>
    obtain ⟨T0, h0, hsq0, hinv0⟩ := ih (by omega)
      (Dvd.dvd.trans (pow_dvd_pow 2 (Nat.le_succ L)) hdiv)
    obtain ⟨T, h1, hsqT, hinv1⟩ := DWT2dLevel_roundtrip T0 d L hsq0 (by omega) hd hdiv
    refine ⟨T, ?_, hsqT, ?_⟩
    · rw [List.range_succ, List.foldlM_append, h0, bind_ok, List.foldlM_cons, h1, bind_ok,
        List.foldlM_nil, pure_eq_ok]
    · rw [List.range_succ, List.reverse_append, List.reverse_singleton, List.singleton_append,
        List.foldlM_cons, hinv1, bind_ok, hinv0]

/-! ## Claims on the two-dimensional transforms -/

/-- C1 (counterexample): the empty matrix is square of side `0`, and `0` is divisible by
`2 ^ 65`, but `DWT2d` with `level = 65` panics: at `k = 64` the shift `1 << k` is `0` and
`dims / curlvl` divides by zero. No matrix is returned, so nothing is given back. -/
theorem DWT2d_empty_65 :
    IsSquare [] 0 ∧ 2 ^ 65 ∣ 0 ∧ DWT2d [] 65 = .error .divideByZero ∧
      IDWT2d [] 65 = .error .divideByZero :=
  ⟨by decide, by decide, by rfl, by rfl⟩

/-- C1, as amended: for every square matrix `M` (a Go slice, so its side is below `2 ^ 63`)
and every `levels` with `0 ≤ levels ≤ 64` such that the side is divisible by `2 ^ levels`,
`DWT2d(M, levels)` returns a matrix `T` and `IDWT2d(T, levels)` returns exactly `M`. -/
theorem roundtrip_2d (M : List (List ℚ)) (d levels : ℕ) (hsq : IsSquare M d) (hrep : d < 2 ^ 63)
    (hlev : levels ≤ 64) (hdiv : 2 ^ levels ∣ d) :
    ∃ T, DWT2d M (levels : ℤ) = .ok T ∧ IDWT2d T (levels : ℤ) = .ok M := by
  obtain ⟨T, h1, hsqT, h2⟩ := levels_roundtrip d levels hlev hrep hdiv M hsq
  refine ⟨T, ?_, ?_⟩
  · unfold DWT2d
    rw [Int.toNat_ofNat, hsq.1]
    exact h1
  · have hw : (wrapInt ((levels : ℤ) - 1) + 1).toNat = levels := by
      unfold wrapInt
      omega
    unfold IDWT2d
    rw [hw, hsqT.1]
    exact h2

/-- Witness of C1 as amended: a `4 × 4` matrix and two levels. -/
theorem roundtrip_2d_witness :
    IsSquare [[1, 2, 3, 4], [5, 6, 7, 8], [9, 10, 11, 12], [13, 14, 15, 17]] 4 ∧
      4 < 2 ^ 63 ∧ 2 ≤ 64 ∧ 2 ^ 2 ∣ 4 ∧
      ∃ T, DWT2d [[1, 2, 3, 4], [5, 6, 7, 8], [9, 10, 11, 12], [13, 14, 15, 17]] ((2 : ℕ) : ℤ)
          = .ok T ∧
        IDWT2d T ((2 : ℕ) : ℤ)
          = .ok [[1, 2, 3, 4], [5, 6, 7, 8], [9, 10, 11, 12], [13, 14, 15, 17]] :=
  ⟨by decide, by decide, by decide, by decide,
    roundtrip_2d [[1, 2, 3, 4], [5, 6, 7, 8], [9, 10, 11, 12], [13, 14, 15, 17]] 4 2
      (by decide) (by decide) (by decide) (by decide)⟩

/-! ## Claims on empty inputs -/

/-- C15: `median` applied to the empty sequence returns no value: it panics with an
index out of range, at `temp[len(temp)/2-1]`, that is `temp[-1]`. -/
theorem median_empty : median [] = .error .indexOutOfRange := by
  rfl

/-- C16 (counterexample): `flatten` applied to the empty matrix reports no error. -/
theorem flatten_empty_no_error : ¬ ∃ e, flatten [] = .error e := by
  rintro ⟨e, he⟩
  have h : flatten [] = .ok [] := by rfl
  rw [h] at he
  cases he

/-- C16, as amended: `flatten` applied to the empty matrix (zero rows) returns the empty
sequence to the caller, without an error. -/
theorem flatten_empty : flatten [] = .ok [] := by
  rfl

/-! ## `median` on odd length -/

theorem median_of_odd (data : List ℚ) (hodd : data.length % 2 = 1) :
    median data = idx data (data.length / 2) := by
  have hlen : (sortFloat64s (copy (List.replicate data.length (0 : ℚ)) data)).length
      = data.length := by
    unfold sortFloat64s
    rw [List.length_insertionSort, length_copy, List.length_replicate]
  unfold median
  simp only []
  rw [hlen, if_pos hodd]

/-- C20: for every sequence `data` of odd length, `median data` returns `data[len/2]`, the
element at the middle index of the input as given; hence when the input is sorted
ascending it is the middle value of the sorted copy; and `median [1, 2, 3] = 2`. -/
theorem median_odd_reads_input :
    (∀ data : List ℚ, data.length % 2 = 1 →
      ∃ x, data[data.length / 2]? = some x ∧ median data = .ok x ∧
        (data.Sorted (· ≤ ·) → (sortFloat64s data)[data.length / 2]? = some x)) ∧
    median [1, 2, 3] = .ok 2 := by
  constructor
  · intro data hodd
    have hlt : data.length / 2 < data.length := by omega
    refine ⟨data[data.length / 2], List.getElem?_eq_getElem hlt, ?_, ?_⟩
    · rw [median_of_odd data hodd, idx_of_lt data _ hlt]
    · intro hs
      rw [sortFloat64s_eq_of_sorted_perm data data hs (List.Perm.refl _),
        List.getElem?_eq_getElem hlt]
  · rw [median_of_odd [1, 2, 3] (by decide)]
    rfl

/-- Witness of C20 on the unsorted sequence `[9, 4, 7, 1, 5]`: the value is `data[2] = 7`. -/
theorem median_odd_reads_input_witness :
    ([9, 4, 7, 1, 5] : List ℚ).length % 2 = 1 ∧ median [9, 4, 7, 1, 5] = .ok 7 := by
  obtain ⟨x, hx, hmed, _⟩ := median_odd_reads_input.1 [9, 4, 7, 1, 5] (by decide)
  simp at hx
  subst hx
  exact ⟨by decide, hmed⟩

/-! ## Claims on the luminance formula -/

theorem grayscaleRow_loop (resized : Image) (n m y : ℕ) (hm : m ≤ n) (row : List ℚ)
    (hrow : row.length = n) :
    (List.range m).foldl (fun row x => row.set x (pixelValue resized x y)) row
      = (List.range m).map (fun x => pixelValue resized x y) ++ row.drop m := by
  induction m with
  | zero => simp
  | succ m ih =>
    have hlt : m < row.length := by omega
    rw [List.range_succ, List.foldl_append, ih (by omega), List.foldl_cons, List.foldl_nil,
      List.set_append, if_neg (by simp), List.length_map, List.length_range, Nat.sub_self,
      List.drop_eq_getElem_cons hlt, List.set_cons_zero, List.map_append, List.map_singleton,
      List.append_assoc, List.singleton_append]

theorem luminance_bounds (r g b : ℕ) (hr : r ≤ 65535) (hg : g ≤ 65535) (hb : b ≤ 65535) :
    0 ≤ luminance r g b ∧ luminance r g b ≤ 1 := by
  have hr0 : (0 : ℚ) ≤ r := Nat.cast_nonneg r
  have hg0 : (0 : ℚ) ≤ g := Nat.cast_nonneg g
  have hb0 : (0 : ℚ) ≤ b := Nat.cast_nonneg b
  have hr1 : (r : ℚ) ≤ 65535 := by exact_mod_cast hr
  have hg1 : (g : ℚ) ≤ 65535 := by exact_mod_cast hg
  have hb1 : (b : ℚ) ≤ 65535 := by exact_mod_cast hb
  unfold luminance
  constructor
  · apply div_nonneg _ (by norm_num)
    norm_num
    linarith
  · rw [div_le_one (by norm_num)]
    norm_num
    linarith

/-! ## The one-dimensional transforms never panic -/

theorem idx_eq_getD (l : List ℚ) (i : ℕ) (h : i < l.length) : idx l i = .ok (l.getD i 0) := by
  rw [idx_of_lt l i h]
  simp [List.getD_eq_getElem?_getD, List.getElem?_eq_getElem h]

theorem setIdx_of_lt {α : Type} (l : List α) (i : ℕ) (x : α) (h : i < l.length) :
    setIdx l i x = .ok (l.set i x) := by
  unfold setIdx
  rw [if_pos h]

theorem DWT1dStepChecked_ok (data : List ℚ) (half : ℕ) (temp : List ℚ) (i : ℕ)
    (hi : i < half) (hn : 2 * half ≤ data.length) (ht : temp.length = data.length) :
    DWT1dStepChecked data half temp i = .ok (DWT1dStep data half temp i) := by
  unfold DWT1dStepChecked DWT1dStep
  simp only []
  rw [idx_eq_getD data (i * 2) (by omega), bind_ok, idx_eq_getD data (i * 2 + 1) (by omega),
    bind_ok, setIdx_of_lt _ _ _ (by omega), bind_ok, bind_ok, bind_ok,
    setIdx_of_lt _ _ _ (by rw [List.length_set]; omega)]

theorem DWT1dChecked_loop (data : List ℚ) (half m : ℕ) (hm : m ≤ half)
    (hn : 2 * half ≤ data.length) (temp : List ℚ) (ht : temp.length = data.length) :
    (List.range m).foldlM (DWT1dStepChecked data half) temp
      = .ok ((List.range m).foldl (DWT1dStep data half) temp) := by
  induction m with
  | zero => simp [pure_eq_ok]
  | succ m ih =>
    rw [List.range_succ, List.foldlM_append, ih (by omega), bind_ok, List.foldlM_cons,
      DWT1dStepChecked_ok data half _ m (by omega) hn (by rw [DWT1d_loop_length, ht]), bind_ok,
      List.foldlM_nil, pure_eq_ok, List.foldl_append, List.foldl_cons, List.foldl_nil]

theorem DWT1dChecked_eq (data : List ℚ) : DWT1dChecked data = .ok (DWT1d data) := by
  unfold DWT1dChecked DWT1d
  simp only []
  rw [DWT1dChecked_loop data _ _ (le_refl _) (by omega) _ (by simp), bind_ok, pure_eq_ok]

theorem iDWT1dStepChecked_ok (data : List ℚ) (half : ℕ) (temp : List ℚ) (i : ℕ)
    (hi : i < half) (hn : 2 * half ≤ data.length) (ht : temp.length = data.length) :
    iDWT1dStepChecked data half temp i = .ok (iDWT1dStep data half temp i) := by
  unfold iDWT1dStepChecked iDWT1dStep
  simp only []
  rw [idx_eq_getD data i (by omega), bind_ok, idx_eq_getD data (i + half) (by omega),
    bind_ok, setIdx_of_lt _ _ _ (by omega), bind_ok, bind_ok, bind_ok,
    setIdx_of_lt _ _ _ (by rw [List.length_set]; omega)]

theorem iDWT1dChecked_loop (data : List ℚ) (half m : ℕ) (hm : m ≤ half)
    (hn : 2 * half ≤ data.length) (temp : List ℚ) (ht : temp.length = data.length) :
    (List.range m).foldlM (iDWT1dStepChecked data half) temp
      = .ok ((List.range m).foldl (iDWT1dStep data half) temp) := by
  induction m with
  | zero => simp [pure_eq_ok]
  | succ m ih =>
    rw [List.range_succ, List.foldlM_append, ih (by omega), bind_ok, List.foldlM_cons,
      iDWT1dStepChecked_ok data half _ m (by omega) hn (by rw [iDWT1d_loop_length, ht]), bind_ok,
      List.foldlM_nil, pure_eq_ok, List.foldl_append, List.foldl_cons, List.foldl_nil]

theorem iDWT1dChecked_eq (data : List ℚ) : iDWT1dChecked data = .ok (iDWT1d data) := by
  unfold iDWT1dChecked iDWT1d
  simp only []
  rw [iDWT1dChecked_loop data _ _ (le_refl _) (by omega) _ (by simp), bind_ok, pure_eq_ok]

theorem getD_dropLast (data : List ℚ) (p : ℕ) (hp : p < data.length - 1) :
    data.dropLast.getD p 0 = data.getD p 0 := by
  rw [List.getD_eq_getElem?_getD, List.getD_eq_getElem?_getD, List.dropLast_eq_take,
    List.getElem?_take, if_pos hp]

theorem DWT1d_of_odd (data : List ℚ) (h : data.length % 2 = 1) :
    DWT1d data = DWT1d data.dropLast ++ [0] := by
  have hl : data.dropLast.length = data.length - 1 := List.length_dropLast data
  have hhalf : (data.length - 1) / 2 = data.length / 2 := by omega
  apply List.ext_getElem?
  intro p
  by_cases hp : p < data.length - 1
  · rw [List.getElem?_append_left (by rw [DWT1d_length, hl]; exact hp), DWT1d_getElem?,
      DWT1d_getElem?, hl, hhalf]
    by_cases h1 : p < data.length / 2
    · rw [if_pos h1, if_pos h1, getD_dropLast data _ (by omega), getD_dropLast data _ (by omega)]
    · have c : data.length / 2 ≤ p ∧ p < data.length / 2 + data.length / 2 := by omega
      rw [if_neg h1, if_neg h1, if_pos c, if_pos c, getD_dropLast data _ (by omega),
        getD_dropLast data _ (by omega)]
  · rw [List.getElem?_append_right (by rw [DWT1d_length, hl]; omega), DWT1d_length, hl,
      DWT1d_getElem?]
    have c : ¬ (data.length / 2 ≤ p ∧ p < data.length / 2 + data.length / 2) := by omega
    rw [if_neg (by omega), if_neg c]
    by_cases hp2 : p < data.length
    · have e : p - (data.length - 1) = 0 := by omega
      rw [if_pos hp2, e]
      rfl
    · have e : p - (data.length - 1) = (p - data.length) + 1 := by omega
      rw [if_neg hp2, e]
      rfl

theorem iDWT1d_of_odd (data : List ℚ) (h : data.length % 2 = 1) :
    iDWT1d data = iDWT1d data.dropLast ++ [0] := by
  have hl : data.dropLast.length = data.length - 1 := List.length_dropLast data
  have hhalf : (data.length - 1) / 2 = data.length / 2 := by omega
  apply List.ext_getElem?
  intro p
  by_cases hp : p < data.length - 1
  · have c : p < 2 * (data.length / 2) := by omega
    rw [List.getElem?_append_left (by rw [iDWT1d_length, hl]; exact hp), iDWT1d_getElem?,
      iDWT1d_getElem?, hl, hhalf, if_pos c, if_pos c, getD_dropLast data _ (by omega),
      getD_dropLast data _ (by omega)]
  · rw [List.getElem?_append_right (by rw [iDWT1d_length, hl]; omega), iDWT1d_length, hl,
      iDWT1d_getElem?, if_neg (by omega)]
    by_cases hp2 : p < data.length
    · have e : p - (data.length - 1) = 0 := by omega
      rw [if_pos hp2, e]
      rfl
    · have e : p - (data.length - 1) = (p - data.length) + 1 := by omega
      rw [if_neg hp2, e]
      rfl

/-- C13 (counterexample): on the odd-length sequence `[1, 2, 3]` neither transform fails;
each returns altered data, with the last element replaced by `0`. -/
theorem odd_length_example :
    DWT1dChecked [1, 2, 3] = .ok [3 / 2, -(1 / 2), 0] ∧
      iDWT1dChecked [1, 2, 3] = .ok [3, -1, 0] := by
  constructor
  · rw [DWT1dChecked_eq]
    congr 1
    decide!
  · rw [iDWT1dChecked_eq]
    congr 1
    decide!

/-- C13, as amended: for every sequence of odd length, `DWT1d` and `iDWT1d` do not fail
(no index is out of range); they return the transform of the sequence without its last
element, followed by `0`: the last element is silently replaced by `0`. -/
theorem odd_length_not_rejected (data : List ℚ) (h : data.length % 2 = 1) :
    DWT1dChecked data = .ok (DWT1d data.dropLast ++ [0]) ∧
      iDWT1dChecked data = .ok (iDWT1d data.dropLast ++ [0]) := by
  rw [DWT1dChecked_eq, iDWT1dChecked_eq, DWT1d_of_odd data h, iDWT1d_of_odd data h]
  exact ⟨rfl, rfl⟩

/-- Witness of C13 as amended, on `[4, 2, 9]`. -/
theorem odd_length_not_rejected_witness :
    ([4, 2, 9] : List ℚ).length % 2 = 1 ∧
      DWT1dChecked [4, 2, 9] = .ok (DWT1d [4, 2] ++ [0]) ∧
      iDWT1dChecked [4, 2, 9] = .ok (iDWT1d [4, 2] ++ [0]) :=
  ⟨by decide, odd_length_not_rejected [4, 2, 9] (by decide)⟩

/-! ## `floorp2` on values that fit in 32 bits -/

theorem floorp2_natCast (n : ℕ) :
    floorp2 (n : ℤ) = ((((smear n : ℕ) : ℤ) - ((smear n >>> 1 : ℕ) : ℤ)) % 2 ^ 64).toNat := by
  rfl

theorem smearStep_top (t m x : ℕ) (hhigh : ∀ j, t < j → x.testBit j = false)
    (hlow : ∀ j, j ≤ t → t < j + m → x.testBit j = true) :
    (∀ j, t < j → (smearStep m x).testBit j = false) ∧
      (∀ j, j ≤ t → t < j + (m + m) → (smearStep m x).testBit j = true) := by
  unfold smearStep
  constructor
  · intro j hj
    rw [Nat.testBit_or, Nat.testBit_shiftRight, hhigh j hj, hhigh (m + j) (by omega)]
    rfl
  · intro j hj1 hj2
    rw [Nat.testBit_or, Nat.testBit_shiftRight]
    by_cases h : t < j + m
    · rw [hlow j hj1 h]
      rfl
    · rw [hlow (m + j) (by omega) (by omega), Bool.or_true]

theorem smear_eq (n t : ℕ) (ht : t < 32) (htop : n.testBit t = true)
    (hhigh : ∀ j, t < j → n.testBit j = false) : smear n = 2 ^ (t + 1) - 1 := by
  have h1 := smearStep_top t 1 n hhigh (fun j hj1 hj2 => by
    have : j = t := by omega
    rw [this]
    exact htop)
  have h2 := smearStep_top t 2 _ h1.1 h1.2
  have h4 := smearStep_top t 4 _ h2.1 h2.2
  have h8 := smearStep_top t 8 _ h4.1 h4.2
  have h16 := smearStep_top t 16 _ h8.1 h8.2
  apply Nat.eq_of_testBit_eq
  intro j
  rw [Nat.testBit_two_pow_sub_one]
  unfold smear
  by_cases hj : j ≤ t
  · rw [h16.2 j hj (by omega)]
    exact (decide_eq_true (by omega)).symm
  · rw [h16.1 j (by omega)]
    exact (decide_eq_false (by omega)).symm

theorem floorp2_of_top_bit (n t : ℕ) (ht : t < 32) (htop : n.testBit t = true)
    (hhigh : ∀ j, t < j → n.testBit j = false) : floorp2 (n : ℤ) = 2 ^ t := by
  have hpos : 0 < 2 ^ t := by positivity
  have hlt : 2 ^ t < 2 ^ 32 := Nat.pow_lt_pow_right (by norm_num) ht
  have hshift : (2 ^ (t + 1) - 1) >>> 1 = 2 ^ t - 1 := by
    rw [Nat.shiftRight_eq_div_pow, pow_succ]
    omega
  rw [floorp2_natCast, smear_eq n t ht htop hhigh, hshift]
  have e : (((2 ^ (t + 1) - 1 : ℕ) : ℤ) - ((2 ^ t - 1 : ℕ) : ℤ)) = ((2 ^ t : ℕ) : ℤ) := by
    rw [pow_succ]
    omega
  rw [e]
  omega

/-- C19: for every integer `v` with `1 ≤ v < 2 ^ 32`, `floorp2 v` is a power of two with
`floorp2 v ≤ v < 2 * floorp2 v`; and `floorp2 0 = 0`. -/
theorem floorp2_32bit :
    (∀ v : ℤ, 1 ≤ v → v < 2 ^ 32 →
      ∃ k : ℕ, floorp2 v = 2 ^ k ∧ ((floorp2 v : ℕ) : ℤ) ≤ v ∧ v < 2 * ((floorp2 v : ℕ) : ℤ)) ∧
    floorp2 0 = 0 := by
  refine ⟨?_, by decide⟩
  intro v h1 h2
  obtain ⟨n, rfl⟩ : ∃ n : ℕ, v = (n : ℤ) := ⟨v.toNat, by omega⟩
  have hn0 : n ≠ 0 := by omega
  have hn32 : n < 2 ^ 32 := by omega
  obtain ⟨t, htop, hhigh⟩ := Nat.exists_most_significant_bit hn0
  have hge : 2 ^ t ≤ n := Nat.testBit_implies_ge htop
  have ht : t < 32 := by
    by_contra hcon
    have : 2 ^ 32 ≤ 2 ^ t := Nat.pow_le_pow_right (by norm_num) (by omega)
    omega
  have hlt : n < 2 ^ (t + 1) := Nat.lt_pow_two_of_testBit n (fun i hi => hhigh i (by omega))
  refine ⟨t, floorp2_of_top_bit n t ht htop hhigh, ?_, ?_⟩
  · rw [floorp2_of_top_bit n t ht htop hhigh]
    exact_mod_cast hge
  · rw [floorp2_of_top_bit n t ht htop hhigh]
    rw [pow_succ] at hlt
    have : n < 2 * 2 ^ t := by omega
    exact_mod_cast this

/-- Witness of C19 at `v = 1000`: `floorp2 1000 = 512`. -/
theorem floorp2_32bit_witness :
    (1 : ℤ) ≤ 1000 ∧ (1000 : ℤ) < 2 ^ 32 ∧
      ∃ k : ℕ, floorp2 1000 = 2 ^ k ∧ ((floorp2 1000 : ℕ) : ℤ) ≤ 1000 ∧
        (1000 : ℤ) < 2 * ((floorp2 1000 : ℕ) : ℤ) :=
  ⟨by decide, by decide, floorp2_32bit.1 1000 (by decide) (by decide)⟩

/-! ## `DWT2d` on arbitrary level counts -/

theorem curdimsAt_eq (d k : ℕ) (hk : k ≤ 63) (hd : d < 2 ^ 63) :
    curdimsAt d k = .ok (((d / 2 ^ k : ℕ)) : ℤ) := by
  by_cases h63 : k = 63
  · subst h63
    rw [curdimsAt_63 d hd, Nat.div_eq_of_lt hd]
  · exact curdimsAt_of_le d k (by omega)

theorem curdimsAt_64 (d : ℕ) : curdimsAt d 64 = .error .divideByZero := by
  have h : shiftLeftInt 1 64 = 0 := by
    unfold shiftLeftInt wrapInt
    norm_num
  unfold curdimsAt
  simp only []
  rw [h, if_pos rfl]

theorem DWT2dLevel_ok (M : List (List ℚ)) (d k : ℕ) (hsq : IsSquare M d) (hk : k ≤ 63)
    (hd : d < 2 ^ 63) :
    ∃ T, DWT2dLevel d M k = .ok T ∧ IsSquare T d ∧
      colPass DWT1d ((d / 2 ^ k : ℕ) : ℤ)
        ((M.take (d / 2 ^ k)).map (rowMap DWT1d (d / 2 ^ k)) ++ M.drop (d / 2 ^ k)) = .ok T := by
  have hc : d / 2 ^ k ≤ d := Nat.div_le_self _ _
  have hrep : d / 2 ^ k < 2 ^ 63 := lt_of_le_of_lt hc hd
  have hsq1 := isSquare_rowPass DWT1d DWT1d_length M d (d / 2 ^ k) hsq
  obtain ⟨T, hT, hsqT, _⟩ := colPass_spec DWT1d DWT1d_length _ d (d / 2 ^ k) hsq1 hc hrep
  refine ⟨T, ?_, hsqT, hT⟩
  unfold DWT2dLevel
  rw [curdimsAt_eq d k hk hd, bind_ok, rowPass_eq DWT1d DWT1d_length M d _ hsq hc hrep, bind_ok,
    hT]

theorem DWT2d_levels_ok (d L : ℕ) (hL : L ≤ 64) (hd : d < 2 ^ 63) (M : List (List ℚ))
    (hsq : IsSquare M d) :
    ∃ T, (List.range L).foldlM (DWT2dLevel d) M = .ok T ∧ IsSquare T d := by
  induction L with
  | zero => exact ⟨M, by simp [pure_eq_ok], hsq⟩
  | succ L ih =>
    obtain ⟨T0, h0, hsq0⟩ := ih (by omega)
    obtain ⟨T, h1, hsqT, _⟩ := DWT2dLevel_ok T0 d L hsq0 (by omega) hd
    exact ⟨T, by rw [List.range_succ, List.foldlM_append, h0, bind_ok, List.foldlM_cons, h1,
      bind_ok, List.foldlM_nil, pure_eq_ok], hsqT⟩

theorem DWT2d_levels_error (d L : ℕ) (hL : 65 ≤ L) (hd : d < 2 ^ 63) (M : List (List ℚ))
    (hsq : IsSquare M d) :
    (List.range L).foldlM (DWT2dLevel d) M = .error .divideByZero := by
  induction L with
  | zero => omega
  | succ L ih =>
    rw [List.range_succ, List.foldlM_append]
    by_cases h : 65 ≤ L
    · rw [ih h, bind_error]
    · have hL64 : L = 64 := by omega
      subst hL64
      obtain ⟨T0, h0, _⟩ := DWT2d_levels_ok d 64 (le_refl _) hd M hsq
      rw [h0, bind_ok, List.foldlM_cons]
      unfold DWT2dLevel
      rw [curdimsAt_64, bind_error, bind_error]

theorem DWT2d_ok_of_le (M : List (List ℚ)) (d levels : ℕ) (hsq : IsSquare M d)
    (hd : d < 2 ^ 63) (hL : levels ≤ 64) :
    ∃ T, DWT2d M (levels : ℤ) = .ok T ∧ IsSquare T d := by
  obtain ⟨T, h, hsqT⟩ := DWT2d_levels_ok d levels hL hd M hsq
  refine ⟨T, ?_, hsqT⟩
  unfold DWT2d
  rw [Int.toNat_ofNat, hsq.1]
  exact h

theorem DWT2d_error_of_ge (M : List (List ℚ)) (d levels : ℕ) (hsq : IsSquare M d)
    (hd : d < 2 ^ 63) (hL : 65 ≤ levels) : DWT2d M (levels : ℤ) = .error .divideByZero := by
  unfold DWT2d
  rw [Int.toNat_ofNat, hsq.1]
  exact DWT2d_levels_error d levels hL hd M hsq

theorem DWT1d_getD_of_even (v : List ℚ) (h p : ℕ) (hv : v.length = 2 * h) (hp : p < 2 * h) :
    (DWT1d v).getD p 0
      = 1 / 2 * v.getD (2 * haarIdx h p) 0 + haarSign h p / 2 * v.getD (2 * haarIdx h p + 1) 0 := by
  have hh : v.length / 2 = h := by omega
  rw [List.getD_eq_getElem?_getD (DWT1d v), DWT1d_getElem?, hh]
  unfold haarIdx haarSign
  by_cases h1 : p < h
  · rw [if_pos h1, if_pos h1, if_pos h1, Option.getD_some]
  · rw [if_neg h1, if_neg h1, if_neg h1, if_pos (by omega), Option.getD_some]
    ring

theorem haarIdx_lt (h p : ℕ) (hp : p < 2 * h) : 2 * haarIdx h p + 1 < 2 * h := by
  unfold haarIdx
  split_ifs <;> omega

theorem rowOf_length (M : List (List ℚ)) (i c : ℕ) : (rowOf M i c).length = c := by
  simp [rowOf]

theorem rowOf_getD (M : List (List ℚ)) (i c j : ℕ) (hj : j < c) :
    (rowOf M i c).getD j 0 = entry M i j := by
  simp [rowOf, List.getD_eq_getElem?_getD, List.getElem?_range, hj]

theorem take_eq_rowOf (M : List (List ℚ)) (d i c : ℕ) (hsq : IsSquare M d) (hi : i < d)
    (hc : c ≤ d) : (M.getD i []).take c = rowOf M i c := by
  have hi2 : i < M.length := by rw [hsq.1]; exact hi
  have hr : M[i].length = d := hsq.2 _ (List.getElem_mem hi2)
  have hget : M.getD i [] = M[i] := by
    simp [List.getD_eq_getElem?_getD, List.getElem?_eq_getElem hi2]
  apply List.ext_getElem?
  intro j
  unfold rowOf entry
  rw [hget, List.getElem?_take, List.getElem?_map]
  by_cases hj : j < c
  · rw [if_pos hj, List.getElem?_range hj, Option.map_some',
      List.getElem?_eq_getElem (show j < M[i].length by omega)]
    simp [List.getD_eq_getElem?_getD, List.getElem?_eq_getElem (show j < M[i].length by omega)]
  · rw [if_neg hj, List.getElem?_eq_none (by simpa using hj), Option.map_none']

theorem getD_rowPass (f : List ℚ → List ℚ) (M : List (List ℚ)) (c i : ℕ) (hc : c ≤ M.length) :
    ((M.take c).map (rowMap f c) ++ M.drop c).getD i []
      = if i < c then rowMap f c (M.getD i []) else M.getD i [] := by
  have hA : ((M.take c).map (rowMap f c)).length = c := by
    rw [List.length_map, List.length_take]
    omega
  simp only [List.getD_eq_getElem?_getD]
  by_cases hi : i < c
  · rw [if_pos hi, List.getElem?_append_left (by omega), List.getElem?_map, List.getElem?_take,
      if_pos hi, List.getElem?_eq_getElem (show i < M.length by omega)]
    rfl
  · rw [if_neg hi, List.getElem?_append_right (by omega), hA, List.getElem?_drop]
    congr 2
    omega

theorem entry_rowPass (f : List ℚ → List ℚ) (hf : ∀ v, (f v).length = v.length)
    (M : List (List ℚ)) (d c i j : ℕ) (hsq : IsSquare M d) (hc : c ≤ d) (hi : i < d) :
    entry ((M.take c).map (rowMap f c) ++ M.drop c) i j
      = if i < c ∧ j < c then (f (rowOf M i c)).getD j 0 else entry M i j := by
  have hi2 : i < M.length := by rw [hsq.1]; exact hi
  have hr : M[i].length = d := hsq.2 _ (List.getElem_mem hi2)
  have hget : M.getD i [] = M[i] := by
    simp [List.getD_eq_getElem?_getD, List.getElem?_eq_getElem hi2]
  unfold entry
  rw [getD_rowPass f M c i (by rw [hsq.1]; exact hc)]
  by_cases hic : i < c
  · rw [if_pos hic]
    unfold rowMap
    rw [take_eq_rowOf M d i c hsq hi hc]
    have hlen : (f (rowOf M i c)).length = c := by rw [hf, rowOf_length]
    simp only [List.getD_eq_getElem?_getD]
    by_cases hjc : j < c
    · rw [if_pos ⟨hic, hjc⟩, List.getElem?_append_left (by omega)]
    · rw [if_neg (fun h => hjc h.2), List.getElem?_append_right (by omega), hlen,
        List.getElem?_drop]
      congr 2
      omega
  · rw [if_neg hic, if_neg (fun h => hic h.1)]

theorem level_entries (P : List (List ℚ)) (d c : ℕ) (hsq : IsSquare P d) (hc : c ≤ d)
    (heven : c % 2 = 0) (hrep : c < 2 ^ 63) :
    ∃ T, (rowPass DWT1d (c : ℤ) P >>= colPass DWT1d (c : ℤ)) = .ok T ∧ IsSquare T d ∧
      ∀ i j, i < d → j < d →
        entry T i j = if i < c ∧ j < c then haar2 (entry P) (c / 2) i j else entry P i j := by
  have hc2 : c = 2 * (c / 2) := by omega
  have hsq1 := isSquare_rowPass DWT1d DWT1d_length P d c hsq
  obtain ⟨T, hT, hsqT, hent⟩ := colPass_spec DWT1d DWT1d_length _ d c hsq1 hc hrep
  refine ⟨T, ?_, hsqT, ?_⟩
  · rw [rowPass_eq DWT1d DWT1d_length P d c hsq hc hrep, bind_ok, hT]
  · intro i j hi hj
    rw [hent]
    by_cases hij : i < c ∧ j < c
    · have hR : ∀ r, r < c →
          entry ((P.take c).map (rowMap DWT1d c) ++ P.drop c) r j
            = 1 / 2 * entry P r (2 * haarIdx (c / 2) j)
              + haarSign (c / 2) j / 2 * entry P r (2 * haarIdx (c / 2) j + 1) := by
        intro r hr
        have hidx := haarIdx_lt (c / 2) j (by omega)
        rw [entry_rowPass DWT1d DWT1d_length P d c r j hsq hc (by omega), if_pos ⟨hr, hij.2⟩,
          DWT1d_getD_of_even _ (c / 2) j (by rw [rowOf_length]; exact hc2) (by omega),
          rowOf_getD P r c _ (by omega), rowOf_getD P r c _ (by omega)]
      have hidx := haarIdx_lt (c / 2) i (by omega)
      rw [if_pos hij, if_pos hij,
        DWT1d_getD_of_even _ (c / 2) i (by rw [colOf_length]; exact hc2) (by omega),
        colOf_getD _ j c _ (by omega), colOf_getD _ j c _ (by omega), hR _ (by omega),
        hR _ (by omega)]
      rfl
    · rw [if_neg hij, if_neg hij,
        entry_rowPass DWT1d DWT1d_length P d c i j hsq hc hi, if_neg hij]

theorem level_le_of_dvd (d L : ℕ) (hpos : 0 < d) (hd : d < 2 ^ 63) (hdiv : 2 ^ L ∣ d) :
    L ≤ 62 := by
  by_contra hcon
  have h1 : 2 ^ 63 ≤ 2 ^ L := Nat.pow_le_pow_right (by norm_num) (by omega)
  have h2 : 2 ^ L ≤ d := Nat.le_of_dvd hpos hdiv
  omega

theorem half_curdims (d k : ℕ) (hdiv : 2 ^ (k + 1) ∣ d) :
    d / 2 ^ k % 2 = 0 ∧ d / 2 ^ k / 2 = d / 2 ^ (k + 1) := by
  obtain ⟨q, hq⟩ := hdiv
  have hpos : 0 < 2 ^ k := by positivity
  have h1 : d = 2 ^ k * (2 * q) := by rw [hq, pow_succ]; ring
  have h2 : d / 2 ^ k = 2 * q := by rw [h1, Nat.mul_div_cancel_left _ hpos]
  have h3 : d / 2 ^ (k + 1) = q := by
    rw [hq, Nat.mul_div_cancel_left _ (by positivity)]
  rw [h2, h3]
  omega

theorem DWT2dLevel_entries (P : List (List ℚ)) (d k : ℕ) (hsq : IsSquare P d) (hk : k ≤ 63)
    (hd : d < 2 ^ 63) (hdiv : 2 ^ (k + 1) ∣ d) :
    ∃ T, DWT2dLevel d P k = .ok T ∧ IsSquare T d ∧
      ∀ i j, i < d → j < d →
        entry T i j = if i < d / 2 ^ k ∧ j < d / 2 ^ k
          then haar2 (entry P) (d / 2 ^ (k + 1)) i j else entry P i j := by
  have hc : d / 2 ^ k ≤ d := Nat.div_le_self _ _
  obtain ⟨heven, hhalf⟩ := half_curdims d k hdiv
  obtain ⟨T, hT, hsqT, hent⟩ := level_entries P d (d / 2 ^ k) hsq hc heven
    (lt_of_le_of_lt hc hd)
  refine ⟨T, ?_, hsqT, ?_⟩
  · unfold DWT2dLevel
    rw [curdimsAt_eq d k hk hd, bind_ok]
    exact hT
  · intro i j hi hj
    rw [hent i j hi hj, hhalf]

theorem DWT2d_succ (M : List (List ℚ)) (k : ℕ) :
    DWT2d M ((k + 1 : ℕ) : ℤ) = DWT2d M (k : ℤ) >>= fun B => DWT2dLevel M.length B k := by
  unfold DWT2d
  rw [Int.toNat_ofNat, Int.toNat_ofNat, List.range_succ, List.foldlM_append]
  congr 1
  funext B
  rw [List.foldlM_cons]
  cases DWT2dLevel M.length B k <;> rfl

/-- C11: for a square matrix `M` of side `dims` (a Go slice, so `dims < 2 ^ 63`) and
`k ≥ 0` with `dims` divisible by `2 ^ (k + 1)`, at every position `(i, j)` of the matrix
with `i ≥ dims / 2 ^ k` or `j ≥ dims / 2 ^ k` the results of `DWT2d(M, k + 1)` and of
`DWT2d(M, k)` have the same entry. -/
theorem forward_frame (M : List (List ℚ)) (d k : ℕ) (hsq : IsSquare M d) (hd : d < 2 ^ 63)
    (hdiv : 2 ^ (k + 1) ∣ d) :
    ∀ i j, i < d → j < d → (d / 2 ^ k ≤ i ∨ d / 2 ^ k ≤ j) →
      ∃ A B x, DWT2d M ((k + 1 : ℕ) : ℤ) = .ok A ∧ DWT2d M (k : ℤ) = .ok B ∧
        entry? A i j = some x ∧ entry? B i j = some x := by
  intro i j hi hj hout
  have hk : k + 1 ≤ 62 := level_le_of_dvd d (k + 1) (by omega) hd hdiv
  obtain ⟨B, hB, hsqB⟩ := DWT2d_ok_of_le M d k hsq hd (by omega)
  obtain ⟨A, hA, hsqA, hent⟩ := DWT2dLevel_entries B d k hsqB (by omega) hd hdiv
  refine ⟨A, B, entry B i j, ?_, hB, ?_, entry?_eq_some B d i j hsqB hi hj⟩
  · rw [DWT2d_succ, hB, bind_ok, hsq.1]
    exact hA
  · rw [entry?_eq_some A d i j hsqA hi hj, hent i j hi hj, if_neg (by omega)]

/-- Witness of C11: a `4 × 4` matrix, `k = 1` and the position `(0, 2)`. -/
theorem forward_frame_witness :
    IsSquare [[1, 2, 3, 4], [5, 6, 7, 8], [9, 10, 11, 12], [13, 14, 15, 17]] 4 ∧
      4 < 2 ^ 63 ∧ 2 ^ (1 + 1) ∣ 4 ∧
      ∃ A B x,
        DWT2d [[1, 2, 3, 4], [5, 6, 7, 8], [9, 10, 11, 12], [13, 14, 15, 17]] ((1 + 1 : ℕ) : ℤ)
          = .ok A ∧
        DWT2d [[1, 2, 3, 4], [5, 6, 7, 8], [9, 10, 11, 12], [13, 14, 15, 17]] ((1 : ℕ) : ℤ)
          = .ok B ∧
        entry? A 0 2 = some x ∧ entry? B 0 2 = some x :=
  ⟨by decide, by decide, by decide,
    forward_frame [[1, 2, 3, 4], [5, 6, 7, 8], [9, 10, 11, 12], [13, 14, 15, 17]] 4 1
      (by decide) (by decide) (by decide) 0 2 (by decide) (by decide) (by decide)⟩

/-! ## Block averages -/

theorem blockSum_double (E : ℕ → ℕ → ℚ) (n i j : ℕ) :
    (∑ a in Finset.range (n + n), ∑ b in Finset.range (n + n),
        E (i * (n + n) + a) (j * (n + n) + b))
      = (∑ a in Finset.range n, ∑ b in Finset.range n, E (2 * i * n + a) (2 * j * n + b))
        + (∑ a in Finset.range n, ∑ b in Finset.range n,
            E (2 * i * n + a) ((2 * j + 1) * n + b))
        + (∑ a in Finset.range n, ∑ b in Finset.range n,
            E ((2 * i + 1) * n + a) (2 * j * n + b))
        + (∑ a in Finset.range n, ∑ b in Finset.range n,
            E ((2 * i + 1) * n + a) ((2 * j + 1) * n + b)) := by
  have e1 : ∀ x a : ℕ, x * (n + n) + a = 2 * x * n + a := fun x a => by ring
  have e2 : ∀ x a : ℕ, x * (n + n) + (n + a) = (2 * x + 1) * n + a := fun x a => by ring
  simp only [Finset.sum_range_add, Finset.sum_add_distrib]
  simp only [e2]
  simp only [e1]
  abel

theorem blockMean_zero (M : List (List ℚ)) (i j : ℕ) : blockMean M 0 i j = entry M i j := by
  simp [blockMean]

theorem blockMean_succ (M : List (List ℚ)) (L i j : ℕ) :
    blockMean M (L + 1) i j
      = 1 / 2 * (1 / 2 * blockMean M L (2 * i) (2 * j)
          + 1 / 2 * blockMean M L (2 * i) (2 * j + 1))
        + 1 / 2 * (1 / 2 * blockMean M L (2 * i + 1) (2 * j)
          + 1 / 2 * blockMean M L (2 * i + 1) (2 * j + 1)) := by
  have hn : ((2 : ℚ) ^ L) ≠ 0 := by positivity
  have hpow : (2 : ℕ) ^ (L + 1) = 2 ^ L + 2 ^ L := by rw [pow_succ]; ring
  have hpowq : (2 : ℚ) ^ (L + 1) = 2 ^ L + 2 ^ L := by rw [pow_succ]; ring
  unfold blockMean
  rw [hpow, hpowq, blockSum_double (entry M) (2 ^ L) i j]
  field_simp
  ring

theorem levels_blockMean (d L : ℕ) (hL : L ≤ 64) (hd : d < 2 ^ 63) (hdiv : 2 ^ L ∣ d)
    (M : List (List ℚ)) (hsq : IsSquare M d) :
    ∃ T, (List.range L).foldlM (DWT2dLevel d) M = .ok T ∧ IsSquare T d ∧
      ∀ i j, i < d / 2 ^ L → j < d / 2 ^ L → entry T i j = blockMean M L i j := by
  induction L with
  | zero => exact ⟨M, by simp [pure_eq_ok], hsq, fun i j _ _ => (blockMean_zero M i j).symm⟩
  | succ L ih =>
    obtain ⟨T0, h0, hsq0, hent0⟩ := ih (by omega)
      (Dvd.dvd.trans (pow_dvd_pow 2 (Nat.le_succ L)) hdiv)
    obtain ⟨T, h1, hsqT, hent1⟩ := DWT2dLevel_entries T0 d L hsq0 (by omega) hd hdiv
    obtain ⟨heven, hhalf⟩ := half_curdims d L hdiv
    have hc : d / 2 ^ L ≤ d := Nat.div_le_self _ _
    refine ⟨T, ?_, hsqT, ?_⟩
    · rw [List.range_succ, List.foldlM_append, h0, bind_ok, List.foldlM_cons, h1, bind_ok,
        List.foldlM_nil, pure_eq_ok]
    · intro i j hi hj
      have hi2 : 2 * i + 1 < d / 2 ^ L := by omega
      have hj2 : 2 * j + 1 < d / 2 ^ L := by omega
      rw [hent1 i j (by omega) (by omega), if_pos ⟨by omega, by omega⟩, blockMean_succ]
      unfold haar2 haarIdx haarSign
      rw [if_pos hi, if_pos hj, if_pos hi, if_pos hj,
        hent0 (2 * i) (2 * j) (by omega) (by omega),
        hent0 (2 * i) (2 * j + 1) (by omega) (by omega),
        hent0 (2 * i + 1) (2 * j) (by omega) (by omega),
        hent0 (2 * i + 1) (2 * j + 1) (by omega) (by omega)]

/-- C18: for a square matrix `M` of side `dims` (a Go slice, so `dims < 2 ^ 63`) and
`levels ≥ 0` with `dims` divisible by `2 ^ levels`, each entry `(i, j)` of the top-left
`dims / 2 ^ levels` square of the result of `DWT2d(M, levels)` is the arithmetic mean of
the `2 ^ levels × 2 ^ levels` block of `M` with top-left corner
`(i * 2 ^ levels, j * 2 ^ levels)`. -/
theorem block_averaging (M : List (List ℚ)) (d levels : ℕ) (hsq : IsSquare M d)
    (hd : d < 2 ^ 63) (hdiv : 2 ^ levels ∣ d) :
    ∀ i j, i < d / 2 ^ levels → j < d / 2 ^ levels →
      ∃ T, DWT2d M (levels : ℤ) = .ok T ∧ entry? T i j = some (blockMean M levels i j) := by
  intro i j hi hj
  have hc : d / 2 ^ levels ≤ d := Nat.div_le_self _ _
  have hL : levels ≤ 62 := level_le_of_dvd d levels (by omega) hd hdiv
  obtain ⟨T, hT, hsqT, hent⟩ := levels_blockMean d levels (by omega) hd hdiv M hsq
  refine ⟨T, ?_, ?_⟩
  · unfold DWT2d
    rw [Int.toNat_ofNat, hsq.1]
    exact hT
  · rw [entry?_eq_some T d i j hsqT (by omega) (by omega), hent i j hi hj]

/-- Witness of C18: a `4 × 4` matrix, one level and the block at `(1, 0)`. -/
theorem block_averaging_witness :
    IsSquare [[1, 2, 3, 4], [5, 6, 7, 8], [9, 10, 11, 12], [13, 14, 15, 17]] 4 ∧
      4 < 2 ^ 63 ∧ 2 ^ 1 ∣ 4 ∧
      ∃ T, DWT2d [[1, 2, 3, 4], [5, 6, 7, 8], [9, 10, 11, 12], [13, 14, 15, 17]] ((1 : ℕ) : ℤ)
          = .ok T ∧
        entry? T 1 0
          = some (blockMean [[1, 2, 3, 4], [5, 6, 7, 8], [9, 10, 11, 12], [13, 14, 15, 17]]
              1 1 0) :=
  ⟨by decide, by decide, by decide,
    block_averaging [[1, 2, 3, 4], [5, 6, 7, 8], [9, 10, 11, 12], [13, 14, 15, 17]] 4 1
      (by decide) (by decide) (by decide) 1 0 (by decide) (by decide)⟩

/-! ## Transposition and the order of the passes -/

theorem isSquare_transpose (M : List (List ℚ)) (d : ℕ) (hsq : IsSquare M d) :
    IsSquare (transpose M) d := by
  unfold transpose
  rw [hsq.1]
  constructor
  · simp
  · intro r hr
    rw [List.mem_map] at hr
    obtain ⟨i, _, rfl⟩ := hr
    simp

theorem entry_transpose (M : List (List ℚ)) (d i j : ℕ) (hsq : IsSquare M d) (hi : i < d)
    (hj : j < d) : entry (transpose M) i j = entry M j i := by
  unfold transpose
  rw [hsq.1]
  conv_lhs => unfold entry
  simp only [List.getD_eq_getElem?_getD, List.getElem?_map, List.getElem?_range hi,
    List.getElem?_range hj, Option.map_some', Option.getD_some]
  simp only [entry, List.getD_eq_getElem?_getD]

theorem transpose_transpose (M : List (List ℚ)) (d : ℕ) (hsq : IsSquare M d) :
    transpose (transpose M) = M := by
  have h1 := isSquare_transpose M d hsq
  apply isSquare_ext _ _ d (isSquare_transpose _ d h1) hsq
  intro i j hi hj
  rw [entry_transpose _ d i j h1 hi hj, entry_transpose M d j i hsq hj hi]

theorem haar2_transpose (P : List (List ℚ)) (d h i j : ℕ) (hsq : IsSquare P d)
    (hh : 2 * h ≤ d) (hi : i < 2 * h) (hj : j < 2 * h) :
    haar2 (entry (transpose P)) h i j = haar2 (entry P) h j i := by
  have hi2 := haarIdx_lt h i hi
  have hj2 := haarIdx_lt h j hj
  unfold haar2
  rw [entry_transpose P d _ _ hsq (by omega) (by omega),
    entry_transpose P d _ _ hsq (by omega) (by omega),
    entry_transpose P d _ _ hsq (by omega) (by omega),
    entry_transpose P d _ _ hsq (by omega) (by omega)]
  ring

theorem DWT2dLevel_transpose (P T : List (List ℚ)) (d k : ℕ) (hsq : IsSquare P d)
    (hk : k ≤ 63) (hd : d < 2 ^ 63) (hdiv : 2 ^ (k + 1) ∣ d) (hT : DWT2dLevel d P k = .ok T) :
    IsSquare T d ∧ DWT2dLevel d (transpose P) k = .ok (transpose T) := by
  obtain ⟨T1, h1, hsq1, hent1⟩ := DWT2dLevel_entries P d k hsq hk hd hdiv
  obtain ⟨T2, h2, hsq2, hent2⟩ :=
    DWT2dLevel_entries (transpose P) d k (isSquare_transpose P d hsq) hk hd hdiv
  rw [hT] at h1
  cases h1
  refine ⟨hsq1, ?_⟩
  rw [h2]
  congr 1
  apply isSquare_ext _ _ d hsq2 (isSquare_transpose T d hsq1)
  intro i j hi hj
  obtain ⟨heven, hhalf⟩ := half_curdims d k hdiv
  have hc : d / 2 ^ k ≤ d := Nat.div_le_self _ _
  rw [entry_transpose T d i j hsq1 hi hj, hent2 i j hi hj, hent1 j i hj hi]
  by_cases hij : i < d / 2 ^ k ∧ j < d / 2 ^ k
  · rw [if_pos hij, if_pos ⟨hij.2, hij.1⟩,
      haar2_transpose P d _ i j hsq (by omega) (by omega) (by omega)]
  · rw [if_neg hij, if_neg (fun h => hij ⟨h.2, h.1⟩), entry_transpose P d i j hsq hi hj]

theorem levels_transpose (d L : ℕ) (hL : L ≤ 64) (hd : d < 2 ^ 63) (hdiv : 2 ^ L ∣ d)
    (M : List (List ℚ)) (hsq : IsSquare M d) :
    ∃ T, (List.range L).foldlM (DWT2dLevel d) M = .ok T ∧ IsSquare T d ∧
      (List.range L).foldlM (DWT2dLevel d) (transpose M) = .ok (transpose T) := by
  induction L with
  | zero => exact ⟨M, by simp [pure_eq_ok], hsq, by simp [pure_eq_ok]⟩
  | succ L ih =>
    obtain ⟨T0, h0, hsq0, ht0⟩ := ih (by omega)
      (Dvd.dvd.trans (pow_dvd_pow 2 (Nat.le_succ L)) hdiv)
    obtain ⟨T, h1, _, _⟩ := DWT2dLevel_ok T0 d L hsq0 (by omega) hd
    obtain ⟨hsqT, ht1⟩ := DWT2dLevel_transpose T0 T d L hsq0 (by omega) hd hdiv h1
    refine ⟨T, ?_, hsqT, ?_⟩
    · rw [List.range_succ, List.foldlM_append, h0, bind_ok, List.foldlM_cons, h1, bind_ok,
        List.foldlM_nil, pure_eq_ok]
    · rw [List.range_succ, List.foldlM_append, ht0, bind_ok, List.foldlM_cons, ht1, bind_ok,
        List.foldlM_nil, pure_eq_ok]

theorem row_first_inverse (M : List (List ℚ)) (d levels : ℕ) (hsq : IsSquare M d)
    (hd : d < 2 ^ 63) (hlev : levels ≤ 64) (hdiv : 2 ^ levels ∣ d) :
    ∃ T X, DWT2d M (levels : ℤ) = .ok T ∧ IDWT2d (transpose T) (levels : ℤ) = .ok X ∧
      transpose X = M := by
  obtain ⟨T, h1, hsqT, h2⟩ := levels_transpose d levels hlev hd hdiv M hsq
  obtain ⟨T2, h3, _, h4⟩ :=
    levels_roundtrip d levels hlev hd hdiv (transpose M) (isSquare_transpose M d hsq)
  rw [h2] at h3
  cases h3
  refine ⟨T, transpose M, ?_, ?_, transpose_transpose M d hsq⟩
  · unfold DWT2d
    rw [Int.toNat_ofNat, hsq.1]
    exact h1
  · have hw : (wrapInt ((levels : ℤ) - 1) + 1).toNat = levels := by
      unfold wrapInt
      omega
    unfold IDWT2d
    rw [hw, (isSquare_transpose T d hsqT).1]
    exact h4

/-- C17 (negation of the claim): there is no square matrix `M` and no `levels ≥ 1` with
side divisible by `2 ^ levels` for which `DWT2d(M, levels)` returns `T`,
`IDWT2d(transpose(T), levels)` returns `X`, and `transpose(X)` differs from `M`. -/
theorem pass_order_not_required :
    ¬ ∃ (M : List (List ℚ)) (d levels : ℕ), IsSquare M d ∧ d < 2 ^ 63 ∧ 1 ≤ levels ∧
      2 ^ levels ∣ d ∧
      ∃ T X, DWT2d M (levels : ℤ) = .ok T ∧ IDWT2d (transpose T) (levels : ℤ) = .ok X ∧
        transpose X ≠ M := by
  rintro ⟨M, d, levels, hsq, hd, _, hdiv, T, X, hT, hX, hne⟩
  have hlev : levels ≤ 64 := by
    by_contra hcon
    rw [DWT2d_error_of_ge M d levels hsq hd (by omega)] at hT
    cases hT
  obtain ⟨T2, X2, hT2, hX2, hM⟩ := row_first_inverse M d levels hsq hd hlev hdiv
  rw [hT] at hT2
  cases hT2
  rw [hX] at hX2
  cases hX2
  exact hne hM

/-- C17, as amended: the inverse that runs the row pass before the column pass within
each level also undoes the forward transform: for every square matrix `M` (a Go slice,
so its side is below `2 ^ 63`) and every `levels` with `1 ≤ levels ≤ 64` and side divisible
by `2 ^ levels`, `DWT2d(M, levels)` returns `T`, `IDWT2d(transpose(T), levels)` returns
`X`, and `transpose(X)` equals `M`. -/
theorem pass_order_commutes (M : List (List ℚ)) (d levels : ℕ) (hsq : IsSquare M d)
    (hd : d < 2 ^ 63) (_hpos : 1 ≤ levels) (hlev : levels ≤ 64) (hdiv : 2 ^ levels ∣ d) :
    ∃ T X, DWT2d M (levels : ℤ) = .ok T ∧ IDWT2d (transpose T) (levels : ℤ) = .ok X ∧
      transpose X = M :=
  row_first_inverse M d levels hsq hd hlev hdiv

/-- Witness of C17 as amended: a `4 × 4` matrix and two levels. -/
theorem pass_order_commutes_witness :
    IsSquare [[1, 2, 3, 4], [5, 6, 7, 8], [9, 10, 11, 12], [13, 14, 15, 17]] 4 ∧
      4 < 2 ^ 63 ∧ 1 ≤ 2 ∧ 2 ≤ 64 ∧ 2 ^ 2 ∣ 4 ∧
      ∃ T X,
        DWT2d [[1, 2, 3, 4], [5, 6, 7, 8], [9, 10, 11, 12], [13, 14, 15, 17]] ((2 : ℕ) : ℤ)
          = .ok T ∧
        IDWT2d (transpose T) ((2 : ℕ) : ℤ) = .ok X ∧
        transpose X = [[1, 2, 3, 4], [5, 6, 7, 8], [9, 10, 11, 12], [13, 14, 15, 17]] :=
  ⟨by decide, by decide, by decide, by decide, by decide,
    pass_order_commutes [[1, 2, 3, 4], [5, 6, 7, 8], [9, 10, 11, 12], [13, 14, 15, 17]] 4 2
      (by decide) (by decide) (by decide) (by decide) (by decide)⟩

/-! ## A level on a region of odd side -/

theorem shiftRight_le_self (x m : ℕ) : x >>> m ≤ x := by
  rw [Nat.shiftRight_eq_div_pow]
  exact Nat.div_le_self _ _

theorem smearStep_lt (m x : ℕ) (h : x < 2 ^ 63) : smearStep m x < 2 ^ 63 := by
  unfold smearStep
  exact Nat.or_lt_two_pow h (lt_of_le_of_lt (shiftRight_le_self x m) h)

theorem floorp2_lt (n : ℕ) (h : n < 2 ^ 63) : floorp2 (n : ℤ) < 2 ^ 63 := by
  have hs : smear n < 2 ^ 63 := by
    unfold smear
    exact smearStep_lt _ _ (smearStep_lt _ _ (smearStep_lt _ _ (smearStep_lt _ _
      (smearStep_lt _ _ h))))
  have hle : smear n >>> 1 ≤ smear n := shiftRight_le_self _ _
  rw [floorp2_natCast]
  omega

theorem grayscaleRow_eq (resized : Image) (n y : ℕ) :
    grayscaleRow resized n y (List.replicate n 0)
      = (List.range n).map (fun x => pixelValue resized x y) := by
  unfold grayscaleRow
  rw [grayscaleRow_loop resized n n y (le_refl _) _ (by simp),
    List.drop_of_length_le (by simp), List.append_nil]

theorem grayscale_loop (resized : Image) (n m : ℕ) (hn : n < 2 ^ 63) (hm : m ≤ n) :
    (List.range m).foldlM
        (fun data y => do
          let row ← makeSlice (0 : ℚ) (n : ℤ)
          pure (data.set y (grayscaleRow resized n y row)))
        (List.replicate n ([] : List ℚ))
      = .ok ((List.range m).map (fun y => (List.range n).map (fun x => pixelValue resized x y))
          ++ List.replicate (n - m) []) := by
  induction m with
  | zero => simp [pure_eq_ok]
  | succ m ih =>
    have hrep : List.replicate (n - m) ([] : List ℚ)
        = [] :: List.replicate (n - (m + 1)) [] := by
      rw [← List.replicate_succ]
      congr 1
      omega
    rw [List.range_succ, List.foldlM_append, ih (by omega), bind_ok, List.foldlM_cons,
      makeSlice_of_lt _ _ hn, bind_ok, pure_eq_ok, bind_ok, List.foldlM_nil, pure_eq_ok,
      grayscaleRow_eq]
    congr 1
    rw [List.set_append, if_neg (by simp), List.length_map, List.length_range, Nat.sub_self,
      hrep, List.set_cons_zero, List.map_append, List.map_singleton, List.append_assoc,
      List.singleton_append]

theorem grayscale_eq (resize : Image → ℤ → ℤ → Image) (img : Image) (v : ℕ)
    (hv : min img.Dx img.Dy = (v : ℤ)) (h63 : v < 2 ^ 63) :
    grayscale resize img
      = .ok ((List.range (floorp2 (v : ℤ))).map (fun y => (List.range (floorp2 (v : ℤ))).map
          (fun x => pixelValue
            (resize img ((floorp2 (v : ℤ) : ℕ) : ℤ) ((floorp2 (v : ℤ) : ℕ) : ℤ)) x y))) := by
  have hlt := floorp2_lt v h63
  unfold grayscale
  simp only []
  rw [hv, wrapInt_of_lt _ hlt, makeSlice_of_lt _ _ hlt, bind_ok, Int.toNat_ofNat,
    grayscale_loop _ _ _ hlt (le_refl _)]
  simp

theorem luminance_of_equal (v : ℕ) : luminance v v v = (v : ℚ) / 65535 := by
  unfold luminance
  congr 1
  norm_num
  ring

theorem entry?_map_range (n x y : ℕ) (F : ℕ → ℕ → ℚ) (hx : x < n) (hy : y < n) :
    entry? ((List.range n).map (fun y => (List.range n).map (fun x => F x y))) y x
      = some (F x y) := by
  unfold entry?
  rw [List.getElem?_map, List.getElem?_range hy]
  show ((List.range n).map (fun x => F x y))[x]? = some (F x y)
  rw [List.getElem?_map, List.getElem?_range hx]
  rfl

theorem isSquare_map_range (n : ℕ) (F : ℕ → ℕ → ℚ) :
    IsSquare ((List.range n).map (fun y => (List.range n).map (fun x => F x y))) n := by
  constructor
  · simp
  · intro r hr
    rw [List.mem_map] at hr
    obtain ⟨y, _, rfl⟩ := hr
    simp

/-- C12: for an image whose smaller side `min(Dx, Dy)` is a non-negative `int`,
`grayscale` returns a square matrix of side `imgScale = floorp2(min(Dx, Dy))`, and for
every pixel `(x, y)` of the resized image the value it stores at `data[y][x]` is
`(0.299*R + 0.587*G + 0.114*B) / 65535` for the samples `R, G, B` of that pixel; when
the samples lie in `[0, 65535]` the value lies in `[0, 1]`, and when `R = G = B = v` it
equals `v / 65535`. -/
theorem luminance_normalised (resize : Image → ℤ → ℤ → Image) (img : Image)
    (h0 : 0 ≤ min img.Dx img.Dy) (h63 : min img.Dx img.Dy < 2 ^ 63) :
    ∃ data, grayscale resize img = .ok data ∧
      IsSquare data (floorp2 (min img.Dx img.Dy)) ∧
      ∀ x y, x < floorp2 (min img.Dx img.Dy) → y < floorp2 (min img.Dx img.Dy) →
        ∀ pixel, pixel = (resize img ((floorp2 (min img.Dx img.Dy) : ℕ) : ℤ)
            ((floorp2 (min img.Dx img.Dy) : ℕ) : ℤ)).At (x : ℤ) (y : ℤ) →
          ∃ val, entry? data y x = some val ∧
            val = (0.299 * (pixel.r : ℚ) + 0.587 * (pixel.g : ℚ) + 0.114 * (pixel.b : ℚ))
              / 65535 ∧
            (pixel.r ≤ 65535 → pixel.g ≤ 65535 → pixel.b ≤ 65535 → 0 ≤ val ∧ val ≤ 1) ∧
            (pixel.g = pixel.r → pixel.b = pixel.r → val = (pixel.r : ℚ) / 65535) := by
  obtain ⟨v, hv⟩ : ∃ v : ℕ, min img.Dx img.Dy = (v : ℤ) :=
    ⟨(min img.Dx img.Dy).toNat, by omega⟩
  have hv63 : v < 2 ^ 63 := by omega
  rw [hv]
  refine ⟨_, grayscale_eq resize img v hv hv63, isSquare_map_range _ _, ?_⟩
  intro x y hx hy pixel hpixel
  refine ⟨luminance pixel.r pixel.g pixel.b, ?_, rfl, ?_, ?_⟩
  · rw [entry?_map_range _ x y _ hx hy, hpixel]
    rfl
  · intro hr hg hb
    exact luminance_bounds _ _ _ hr hg hb
  · intro hg hb
    rw [hg, hb]
    exact luminance_of_equal _

/-- Witness of C12: a `2 × 3` image resized to `2 × 2`, every pixel with the samples
`65535, 0, 32768`; the value stored at `data[0][0]` lies in `[0, 1]`. -/
theorem luminance_normalised_witness :
    0 ≤ min 2 3 ∧ min 2 3 < 2 ^ 63 ∧
      ∃ data val,
        grayscale (fun _ w h => { Dx := w, Dy := h, At := fun _ _ => ⟨65535, 0, 32768, 65535⟩ })
            { Dx := 2, Dy := 3, At := fun _ _ => ⟨65535, 0, 32768, 65535⟩ } = .ok data ∧
          IsSquare data 2 ∧ entry? data 0 0 = some val ∧ 0 ≤ val ∧ val ≤ 1 := by
  obtain ⟨data, hdata, hsq, hent⟩ := luminance_normalised
    (fun _ w h => { Dx := w, Dy := h, At := fun _ _ => ⟨65535, 0, 32768, 65535⟩ })
    { Dx := 2, Dy := 3, At := fun _ _ => ⟨65535, 0, 32768, 65535⟩ } (by decide) (by decide)
  have hn : floorp2 (min 2 3) = 2 := by decide
  rw [hn] at hsq hent
  obtain ⟨val, hval, _, hb, _⟩ := hent 0 0 (by decide) (by decide) _ rfl
  exact ⟨by decide, by decide, data, val, hdata, hsq, hval,
    hb (by decide) (by decide) (by decide)⟩

end Imagehash
